import Mathlib

/-!
Verification of the pyscn static-analysis engine specification.

The repository ships only its Python test fixtures and a thin wrapper under
the source tree; the analyzer implementations themselves (AST/graph builder,
dependency-cycle detector, dead-code analyzer, clone detector, cohesion
analyzer, DI anti-pattern detector) are not present.  Each analyzer is
therefore modelled from the specification text, and the concrete Python
fixtures from the repository (with their documented expected results) are
embedded as concrete inputs.

Module identifiers are abstracted as a linearly ordered type with decidable
equality, following the spec's "arena + index pattern ... keyed by stable
module identifiers" design note; concrete instantiations use `Nat` or
`String`.
-/

/-- Keeps the first occurrence of every element not in `seen`, in order of
first appearance. -/
def firstOccsAux {α : Type} [DecidableEq α] (seen : List α) : List α → List α
  | [] => []
  | x :: xs =>
      if seen.contains x then firstOccsAux seen xs
      else x :: firstOccsAux (x :: seen) xs

/-- Keeps the first occurrence of every element, in order of first
appearance.  Used for deduplicating edge lists and for assigning
positional placeholders to identifiers during clone normalization. -/
def firstOccs {α : Type} [DecidableEq α] (l : List α) : List α :=
  firstOccsAux [] l

/-! ## Import and dependency-graph model (spec sections 3, 4.1, 4.2) -/

/-- Modelled from the spec: a guard condition of a conditional block, as seen
by the builder's conditional-import detection — either the recognized
"type-checking only" sentinel constant, some other (unrecognized) condition,
or a boolean combination of guards. -/
inductive GuardExpr
  | sentinel
  | other
  | gand (a b : GuardExpr)
  | gor (a b : GuardExpr)
deriving DecidableEq

/-- Modelled from the spec: a guard condition is a "type-checking only" guard
when the recognized sentinel occurs in it, possibly combined with other
conditions via boolean operators. -/
def containsSentinel : GuardExpr → Bool
  | .sentinel => true
  | .other => false
  | .gand a b => containsSentinel a || containsSentinel b
  | .gor a b => containsSentinel a || containsSentinel b

/-- Modelled from the spec: an import statement of a module — its resolved
target identifier, the guard conditions of all conditional blocks it is
lexically nested in, and the `reexport` flag (true when the imported name is
made visible under the importing module's own namespace). -/
structure ImportStmt (α : Type) where
  target : α
  guards : List GuardExpr
  reexport : Bool
deriving DecidableEq

/-- Modelled from the spec: a Module — a logical compilation unit with a
stable resolved identifier and its ordered list of import statements. -/
structure PyModule (α : Type) where
  mid : α
  imports : List (ImportStmt α)
deriving DecidableEq

/-- Modelled from the spec: an import is `conditional` when it is lexically
nested inside at least one block whose guard condition is a recognized
type-checking-only sentinel (possibly combined with other conditions). -/
def conditionalImport {α : Type} (i : ImportStmt α) : Bool :=
  i.guards.any containsSentinel

/-- The identifiers of all modules of a project. -/
def moduleIds {α : Type} (ms : List (PyModule α)) : List α :=
  ms.map (·.mid)

/-- Modelled from the spec: the dependency-graph adjacency of a module.
Conditional imports are excluded; imports whose target does not resolve to a
known module of the project are external and never participate in cycle
detection; edges are deduplicated.  The `reexport` flag is informational only
and does not influence graph construction. -/
def adjacencyOf {α : Type} [DecidableEq α] (ms : List (PyModule α)) (m : α) : List α :=
  match ms.find? (fun mo => mo.mid == m) with
  | none => []
  | some mo =>
      firstOccs ((mo.imports.filter
        (fun i => !(conditionalImport i) && (moduleIds ms).contains i.target)).map (·.target))

/-- Modelled from the spec: depth-first enumeration of the elementary cycles
through `start` that stay on identifiers not smaller than `start`, so that
every elementary cycle is produced exactly once, starting at its
lexicographically smallest participating identifier (the spec's canonical
reporting order).  `visited` holds the current path in reverse. -/
def cyclesAux {α : Type} [LinearOrder α] [DecidableEq α] (adj : α → List α) :
    Nat → α → α → List α → List (List α)
  | 0, _, _, _ => []
  | fuel + 1, start, cur, visited =>
      (adj cur).foldr
        (fun nxt acc =>
          if nxt == start then visited.reverse :: acc
          else if decide (nxt < start) || visited.contains nxt then acc
          else cyclesAux adj fuel start nxt (nxt :: visited) ++ acc)
        []

/-- Elementary cycles through `v` that use only identifiers not smaller
than `v`, reported starting at `v`. -/
def cyclesFrom {α : Type} [LinearOrder α] [DecidableEq α]
    (adj : α → List α) (fuel : Nat) (v : α) : List (List α) :=
  cyclesAux adj fuel v v [v]

/-- Modelled from the spec: the set of all elementary cycles of a dependency
graph, each reported once, in canonical order (the reported path starts at
the smallest participating identifier).  A self-loop is reported as the
degenerate one-node cycle `[v]`. -/
def cycleFindingsCore {α : Type} [LinearOrder α] [DecidableEq α]
    (ids : List α) (adj : α → List α) : List (List α) :=
  (firstOccs ids).foldr (fun v acc => cyclesFrom adj ids.length v ++ acc) []

/-- Modelled from the spec: the cycle findings of a project — the elementary
cycles of the dependency graph built from the modules' non-conditional,
resolved imports. -/
def cycleFindings {α : Type} [LinearOrder α] [DecidableEq α]
    (ms : List (PyModule α)) : List (List α) :=
  cycleFindingsCore (moduleIds ms) (adjacencyOf ms)

/-- Rewrites every import's `reexport` flag by an arbitrary per-edge choice,
leaving targets and guards unchanged. -/
def reflagReexports {α : Type} (newFlag : α → α → Bool)
    (ms : List (PyModule α)) : List (PyModule α) :=
  ms.map (fun mo =>
    ⟨mo.mid, mo.imports.map (fun i => ⟨i.target, i.guards, newFlag mo.mid i.target⟩)⟩)

/-- The re-export chain fixture: module `a` imports from `b`, and `b`
re-exports a name of `a` (the import edge `b → a` carries `reexport=true`),
as in the `reexport_cycle` fixture where `pkg_b.file` imports `SomeClass`
re-exported by `pkg_a`. -/
def reexportChain {α : Type} (a b : α) : List (PyModule α) :=
  [⟨a, [⟨b, [], false⟩]⟩, ⟨b, [⟨a, [], true⟩]⟩]

/-- A direct two-module import cycle between `a` and `b`, with no re-export
involved. -/
def directCycle {α : Type} (a b : α) : List (PyModule α) :=
  [⟨a, [⟨b, [], false⟩]⟩, ⟨b, [⟨a, [], false⟩]⟩]

/-! ## AST/Graph builder and parse-failure isolation (spec sections 4.1, 7) -/

/-- Modelled from the spec: a source file as seen by the builder.  The
tree-sitter parser itself is not part of the sources; a file is abstracted
by its path and its parse outcome — `none` models a syntax error, `some`
carries the import list extracted from the parse tree. -/
structure RawFile where
  path : String
  parsed : Option (List (ImportStmt String))

/-- Modelled from the spec: the result of the build pass — one Module per
successfully parsed file, plus one `ParseFailure` finding (recorded by file
path) per file whose parse failed. -/
structure BuildOutput where
  modules : List (PyModule String)
  parseFailures : List String

/-- Modelled from the spec: the builder produces one Module per file and
never fails the whole run on a single file's syntax error — a failing file
yields a `ParseFailure` finding and is excluded from all downstream graphs
(it contributes no Module at all, so its absence cannot be mistaken for an
empty import list). -/
def buildModules (fs : List RawFile) : BuildOutput :=
  { modules := fs.filterMap (fun f => f.parsed.map (fun imps => ⟨f.path, imps⟩)),
    parseFailures := fs.filterMap (fun f => if f.parsed.isNone then some f.path else none) }

/-! ## Helper lemmas on `firstOccs` -/

theorem mem_of_mem_firstOccsAux {α : Type} [DecidableEq α] {x : α} :
    ∀ (seen l : List α), x ∈ firstOccsAux seen l → x ∈ l := by
  intro seen l
  induction l generalizing seen with
  | nil => simp [firstOccsAux]
  | cons a t ih =>
      intro h
      simp only [firstOccsAux] at h
      by_cases hc : (seen.contains a)
      · simp only [hc, if_pos] at h
        exact List.mem_cons_of_mem _ (ih seen h)
      · simp only [hc, if_neg, Bool.false_eq_true, not_false_iff] at h
        rcases List.mem_cons.mp h with h | h
        · exact h ▸ List.mem_cons_self _ _
        · exact List.mem_cons_of_mem _ (ih _ h)

theorem mem_of_mem_firstOccs {α : Type} [DecidableEq α] {x : α} {l : List α}
    (h : x ∈ firstOccs l) : x ∈ l :=
  mem_of_mem_firstOccsAux [] l h

/-- The dependency-graph construction never looks at the `reexport` flag:
rewriting every edge's flag arbitrarily leaves the adjacency unchanged. -/
theorem adjacencyOf_reflag {α : Type} [DecidableEq α]
    (newFlag : α → α → Bool) (ms : List (PyModule α)) :
    adjacencyOf (reflagReexports newFlag ms) = adjacencyOf ms := by
  funext m
  simp only [adjacencyOf, reflagReexports, List.find?_map]
  have hids : moduleIds (ms.map (fun mo =>
      (⟨mo.mid, mo.imports.map (fun i => ⟨i.target, i.guards, newFlag mo.mid i.target⟩)⟩ :
        PyModule α))) = moduleIds ms := by
    simp [moduleIds]
  rcases hf : ms.find? (fun mo => mo.mid == m) with _ | mo
  · have hf' : ms.find? ((fun mo => mo.mid == m) ∘ (fun mo =>
        (⟨mo.mid, mo.imports.map (fun i => ⟨i.target, i.guards, newFlag mo.mid i.target⟩)⟩ :
          PyModule α))) = none := hf
    rw [hf', hf]
    rfl
  · have hf' : ms.find? ((fun mo => mo.mid == m) ∘ (fun mo =>
        (⟨mo.mid, mo.imports.map (fun i => ⟨i.target, i.guards, newFlag mo.mid i.target⟩)⟩ :
          PyModule α))) = some mo := hf
    simp only [hf', hf, Option.map_some]
    rw [hids]
    show firstOccs (List.map (fun x => x.target)
        (List.filter (fun i => !conditionalImport i && (moduleIds ms).contains i.target)
          (List.map (fun i => (⟨i.target, i.guards, newFlag mo.mid i.target⟩ : ImportStmt α))
            mo.imports))) =
      firstOccs (List.map (fun x => x.target)
        (List.filter (fun i => !conditionalImport i && (moduleIds ms).contains i.target)
          mo.imports))
    rw [List.filter_map, List.map_map]
    rfl

/-! ## Claim theorems for the dependency analyzer and the builder -/

/-- C1: an import statement lying inside a block whose guard condition is a
recognized type-checking-only sentinel (possibly combined with other
conditions via boolean operators) is marked conditional and excluded from
the dependency graph; a module importing itself only under such a guard
produces no cycle finding, while the same import made unconditional produces
exactly one cycle finding. -/
theorem C1_type_checking_guard {α : Type} [LinearOrder α] [DecidableEq α]
    (m : α) (g : GuardExpr) (hg : containsSentinel g = true) :
    (∀ i : ImportStmt α, g ∈ i.guards → conditionalImport i = true)
    ∧ (∀ (ms : List (PyModule α)) (x t : α), t ∈ adjacencyOf ms x →
        ∃ mo, mo ∈ ms ∧ mo.mid = x ∧ ∃ imp, imp ∈ mo.imports ∧
          conditionalImport imp = false ∧ imp.target = t)
    ∧ cycleFindings [⟨m, [⟨m, [g], false⟩]⟩] = []
    ∧ cycleFindings [⟨m, [⟨m, [], false⟩]⟩] = [[m]] := by
  refine ⟨?_, ?_, ?_, ?_⟩
  · intro i hi
    exact List.any_eq_true.mpr ⟨g, hi, hg⟩
  · intro ms x t ht
    unfold adjacencyOf at ht
    rcases hf : ms.find? (fun mo => mo.mid == x) with _ | mo
    · rw [hf] at ht; simp at ht
    · rw [hf] at ht
      have hmem : mo ∈ ms := List.mem_of_find?_eq_some hf
      have hmid : mo.mid = x := by
        have := List.find?_some hf
        simpa using this
      have ht' := mem_of_mem_firstOccs ht
      rcases List.mem_map.mp ht' with ⟨imp, himp, rfl⟩
      rcases List.mem_filter.mp himp with ⟨himp2, hp⟩
      refine ⟨mo, hmem, hmid, imp, himp2, ?_, rfl⟩
      simp only [Bool.and_eq_true, Bool.not_eq_true'] at hp
      exact hp.1
  · simp [cycleFindings, cycleFindingsCore, cyclesFrom, cyclesAux, firstOccs, firstOccsAux,
      adjacencyOf, List.find?, conditionalImport, moduleIds, hg]
  · simp [cycleFindings, cycleFindingsCore, cyclesFrom, cyclesAux, firstOccs, firstOccsAux,
      adjacencyOf, List.find?, conditionalImport, moduleIds]

/-- Witness for C1 at the fixture's compound guard `TYPE_CHECKING and
(version test)` and a concrete self-importing module. -/
theorem C1_type_checking_guard_witness :
    containsSentinel (GuardExpr.gand .sentinel .other) = true
    ∧ cycleFindings [⟨(2 : Nat), [⟨2, [GuardExpr.gand .sentinel .other], false⟩]⟩] = []
    ∧ cycleFindings [⟨(2 : Nat), [⟨2, [], false⟩]⟩] = [[2]] :=
  ⟨rfl, (C1_type_checking_guard 2 (GuardExpr.gand .sentinel .other) rfl).2.2.1,
    (C1_type_checking_guard 2 (GuardExpr.gand .sentinel .other) rfl).2.2.2⟩

/-- C2: a re-export chain (module `a` imports from `b` while `b` re-exports
a name of `a`) is detected exactly like a direct two-module cycle, with
participating modules reported as the set containing `a` and `b`; moreover
the `reexport` flag never influences cycle detection at all — rewriting
every edge's flag arbitrarily leaves the cycle findings of any project
unchanged. -/
theorem C2_reexport_cycle {α : Type} [LinearOrder α] [DecidableEq α]
    (a b : α) (h : a ≠ b) :
    cycleFindings (reexportChain a b) = cycleFindings (directCycle a b)
    ∧ (cycleFindings (reexportChain a b)).map List.toFinset = [{a, b}]
    ∧ (∀ (newFlag : α → α → Bool) (ms : List (PyModule α)),
        cycleFindings (reflagReexports newFlag ms) = cycleFindings ms) := by
  have hab : (a == b) = false := beq_eq_false_iff_ne.mpr h
  have hba : (b == a) = false := beq_eq_false_iff_ne.mpr (Ne.symm h)
  have hadj : adjacencyOf (reexportChain a b) = adjacencyOf (directCycle a b) := by
    funext x
    by_cases h1 : (a == x) <;> by_cases h2 : (b == x) <;>
      simp [adjacencyOf, reexportChain, directCycle, List.find?, conditionalImport,
        moduleIds, h1, h2]
  refine ⟨?_, ?_, ?_⟩
  · show cycleFindingsCore (moduleIds (reexportChain a b)) _ =
      cycleFindingsCore (moduleIds (directCycle a b)) _
    rw [hadj]
    rfl
  · rcases lt_trichotomy a b with hlt | heq | hlt
    · simp [cycleFindings, cycleFindingsCore, cyclesFrom, cyclesAux, firstOccs, firstOccsAux,
        adjacencyOf, reexportChain, List.find?, conditionalImport, moduleIds,
        hab, hba, h, Ne.symm h, hlt, lt_asymm hlt]
    · exact absurd heq h
    · simp [cycleFindings, cycleFindingsCore, cyclesFrom, cyclesAux, firstOccs, firstOccsAux,
        adjacencyOf, reexportChain, List.find?, conditionalImport, moduleIds,
        hab, hba, h, Ne.symm h, hlt, lt_asymm hlt, Finset.pair_comm a b]
  · intro newFlag ms
    show cycleFindingsCore (moduleIds (reflagReexports newFlag ms)) _ =
      cycleFindingsCore (moduleIds ms) _
    rw [adjacencyOf_reflag]
    have : moduleIds (reflagReexports newFlag ms) = moduleIds ms := by
      simp [reflagReexports, moduleIds]
    rw [this]

/-- Witness for C2 at concrete distinct module identifiers. -/
theorem C2_reexport_cycle_witness :
    (1 : Nat) ≠ 2
    ∧ (cycleFindings (reexportChain (1 : Nat) 2) = cycleFindings (directCycle 1 2)
       ∧ (cycleFindings (reexportChain (1 : Nat) 2)).map List.toFinset = [{1, 2}]) :=
  ⟨by decide, (C2_reexport_cycle 1 2 (by decide)).1, (C2_reexport_cycle 1 2 (by decide)).2.1⟩

/-- C9: a single file whose parse fails never fails the build — it yields a
`ParseFailure` finding, contributes no module at all (so its absence cannot
be read as an empty import list), and the modules, the other files' parse
findings and the downstream cycle findings are identical to a run in which
the failing file is absent. -/
theorem C9_parse_failure_isolation (pre post : List RawFile) (f : RawFile)
    (hf : f.parsed = none) :
    (buildModules (pre ++ f :: post)).modules = (buildModules (pre ++ post)).modules
    ∧ (buildModules (pre ++ f :: post)).parseFailures =
        (buildModules pre).parseFailures ++ f.path :: (buildModules post).parseFailures
    ∧ f.path ∈ (buildModules (pre ++ f :: post)).parseFailures
    ∧ cycleFindings (buildModules (pre ++ f :: post)).modules =
        cycleFindings (buildModules (pre ++ post)).modules
    ∧ (buildModules [f]).modules = [] := by
  have hmods : (buildModules (pre ++ f :: post)).modules =
      (buildModules (pre ++ post)).modules := by
    simp [buildModules, List.filterMap_append, List.filterMap_cons, hf]
  have hfail : (buildModules (pre ++ f :: post)).parseFailures =
      (buildModules pre).parseFailures ++ f.path :: (buildModules post).parseFailures := by
    simp [buildModules, List.filterMap_append, List.filterMap_cons, hf]
  refine ⟨hmods, hfail, ?_, ?_, ?_⟩
  · rw [hfail]
    exact List.mem_append_right _ (List.mem_cons_self _ _)
  · rw [hmods]
  · simp [buildModules, List.filterMap_cons, hf]

/-- Witness for C9, modelling the `syntax_errors.py` fixture failing to
parse amid two healthy files. -/
theorem C9_parse_failure_isolation_witness :
    (RawFile.mk "edge_cases/syntax_errors.py" none).parsed = none
    ∧ (buildModules [⟨"simple/imports.py", some [⟨"collections", [], false⟩]⟩,
        ⟨"edge_cases/syntax_errors.py", none⟩,
        ⟨"simple/functions.py", some []⟩]).modules =
      (buildModules [⟨"simple/imports.py", some [⟨"collections", [], false⟩]⟩,
        ⟨"simple/functions.py", some []⟩]).modules
    ∧ "edge_cases/syntax_errors.py" ∈
        (buildModules [⟨"simple/imports.py", some [⟨"collections", [], false⟩]⟩,
          ⟨"edge_cases/syntax_errors.py", none⟩,
          ⟨"simple/functions.py", some []⟩]).parseFailures :=
  ⟨rfl,
    (C9_parse_failure_isolation [⟨"simple/imports.py", some [⟨"collections", [], false⟩]⟩]
      [⟨"simple/functions.py", some []⟩] ⟨"edge_cases/syntax_errors.py", none⟩ rfl).1,
    (C9_parse_failure_isolation [⟨"simple/imports.py", some [⟨"collections", [], false⟩]⟩]
      [⟨"simple/functions.py", some []⟩] ⟨"edge_cases/syntax_errors.py", none⟩ rfl).2.2.1⟩

/-! ## Dead-code analyzer model (spec section 4.3) -/

/-- Modelled from the spec: the recognized exception categories and their
hierarchy, mirroring the standard Python exception classes used by the
fixtures. -/
inductive ExcTy
  | baseExc
  | excT
  | valueErr
  | typeErr
  | lookupErr
  | keyErr
  | arithErr
  | zeroDivErr
deriving DecidableEq

/-- The category together with all its ancestors, innermost first. -/
def ancestorList : ExcTy → List ExcTy
  | .baseExc => [.baseExc]
  | .excT => [.excT, .baseExc]
  | .valueErr => [.valueErr, .excT, .baseExc]
  | .typeErr => [.typeErr, .excT, .baseExc]
  | .lookupErr => [.lookupErr, .excT, .baseExc]
  | .keyErr => [.keyErr, .lookupErr, .excT, .baseExc]
  | .arithErr => [.arithErr, .excT, .baseExc]
  | .zeroDivErr => [.zeroDivErr, .arithErr, .excT, .baseExc]

/-- Modelled from the spec: category `a` covers category `b` when a handler
catching `a` also catches every exception of category `b` (superset or
equal). -/
def covers (a b : ExcTy) : Bool :=
  (ancestorList b).contains a

/-- Strict subsumption: `a` catches strictly more than `b`. -/
def strictCovers (a b : ExcTy) : Bool :=
  covers a b && !(a == b)

/-- Modelled from the spec: the statement language over which one
function's control-flow is analyzed.  `simpleS` is any plain statement with
no control transfer (an assignment, a call, a print); a try statement
carries its protected body, its ordered exception handlers (caught category
paired with handler body) and its `finally`-equivalent block. -/
inductive DStmt
  | simpleS
  | retS (v : String)
  | raiseS (t : ExcTy)
  | breakS
  | continueS
  | tryS (body : List DStmt) (handlers : List (ExcTy × List DStmt)) (fin : List DStmt)

/-- Outcome of executing a statement sequence. -/
inductive DOut
  | normalO
  | returnedO (v : String)
  | raisedO (t : ExcTy)
  | brokeO
  | continuedO
deriving DecidableEq

mutual

/-- Modelled from the spec: execution semantics of one statement.  For a try
statement, the protected region runs first; a raised exception is offered to
the handlers in order; then the `finally`-equivalent block always runs, and
its own terminal control transfer overrides any pending return or exception
from the protected region. -/
def execS : DStmt → DOut
  | .simpleS => .normalO
  | .retS v => .returnedO v
  | .raiseS t => .raisedO t
  | .breakS => .brokeO
  | .continueS => .continuedO
  | .tryS body hs fin =>
      let pend :=
        match execB body with
        | .raisedO t => execH t hs
        | o => o
      match execB fin with
      | .normalO => pend
      | o => o

/-- Runs the first handler whose caught category covers the raised category;
re-raises when no handler matches. -/
def execH (t : ExcTy) : List (ExcTy × List DStmt) → DOut
  | [] => .raisedO t
  | h :: rest => if covers h.1 t then execB h.2 else execH t rest

/-- Executes a statement sequence: the first non-normal outcome stops the
sequence. -/
def execB : List DStmt → DOut
  | [] => .normalO
  | s :: ss =>
      match execS s with
      | .normalO => execB ss
      | o => o

end

mutual

/-- A statement is statically terminal when no execution of it continues to
the next statement of its block. -/
def terminalS : DStmt → Bool
  | .simpleS => false
  | .retS _ => true
  | .raiseS _ => true
  | .breakS => true
  | .continueS => true
  | .tryS body hs fin =>
      terminalB fin || (terminalB body && terminalHs hs)

/-- Every handler body is terminal. -/
def terminalHs : List (ExcTy × List DStmt) → Bool
  | [] => true
  | h :: t => terminalB h.2 && terminalHs t

/-- A block is terminal when some statement of it is terminal. -/
def terminalB : List DStmt → Bool
  | [] => false
  | s :: ss => terminalS s || terminalB ss

end

mutual

/-- Number of statements of one statement, nested statements included. -/
def sizeS : DStmt → Nat
  | .tryS body hs fin => 1 + (sizeB body + (sizeHs hs + sizeB fin))
  | _ => 1

/-- Number of statements of a handler list, nested statements included;
each handler clause itself counts as one. -/
def sizeHs : List (ExcTy × List DStmt) → Nat
  | [] => 0
  | h :: t => 1 + (sizeB h.2 + sizeHs t)

/-- Number of statements of a block, nested statements included. -/
def sizeB : List DStmt → Nat
  | [] => 0
  | s :: ss => sizeS s + sizeB ss

end

mutual

/-- Modelled from the spec: the dead-code classification of one statement,
given whether control can reach it (`r = true` means reachable).  The
result is the flattened list of per-statement dead flags (`true` = the
statement is classified unreachable), in source order.  For a try
statement: the protected body starts with the statement's own
reachability; handler bodies start reachable unless an earlier handler's
caught category covers theirs (exception-type subsumption, independent of
body content); the `finally`-equivalent block starts with the statement's
own reachability, never dimmed by how the protected region exits. -/
def flagsS (r : Bool) : DStmt → List Bool
  | .tryS body hs fin =>
      (!r) :: (flagsB r body ++ (flagsHs r [] hs ++ flagsB r fin))
  | _ => [!r]

/-- Dead flags of a handler list; `seen` accumulates the caught categories
of earlier handlers. -/
def flagsHs (r : Bool) (seen : List ExcTy) : List (ExcTy × List DStmt) → List Bool
  | [] => []
  | h :: t =>
      let cov := seen.any (fun c => covers c h.1)
      (!r || cov) :: (flagsB (r && !cov) h.2 ++ flagsHs r (h.1 :: seen) t)

/-- Dead flags of a block: a statement after a terminal statement of the
same block is unreachable. -/
def flagsB (r : Bool) : List DStmt → List Bool
  | [] => []
  | s :: ss => flagsS r s ++ flagsB (r && !terminalS s) ss

end

/-- Modelled from the spec: per-handler unreachability bits of an ordered
handler list — a handler is unreachable exactly when some earlier handler's
caught category covers its own (exception-type subsumption); `seen` holds
the categories of the handlers already passed. -/
def handlerDeadBits (seen : List ExcTy) : List (ExcTy × List DStmt) → List Bool
  | [] => []
  | h :: t => (seen.any (fun c => covers c h.1)) :: handlerDeadBits (h.1 :: seen) t

/-- A handler whose category is covered by some earlier handler (or by an
already-seen category) is classified unreachable. -/
theorem handlerDeadBits_covered :
    ∀ (hs : List (ExcTy × List DStmt)) (seen : List ExcTy) (j : Nat) (hj : j < hs.length),
      ((∃ c ∈ seen, covers c (hs.get ⟨j, hj⟩).1 = true) ∨
       (∃ i, ∃ hij : i < j, covers (hs.get ⟨i, Nat.lt_trans hij hj⟩).1 (hs.get ⟨j, hj⟩).1 = true)) →
      (handlerDeadBits seen hs).get? j = some true := by
  intro hs
  induction hs with
  | nil => intro seen j hj; exact absurd hj (Nat.not_lt_zero j)
  | cons h t ih =>
      intro seen j hj hcov
      cases j with
      | zero =>
          rcases hcov with ⟨c, hc, hcv⟩ | ⟨i, hij, _⟩
          · have hb : seen.any (fun c => covers c h.1) = true :=
              List.any_eq_true.mpr ⟨c, hc, by simpa using hcv⟩
            simp [handlerDeadBits, hb]
          · exact absurd hij (Nat.not_lt_zero i)
      | succ jj =>
          have hj' : jj < t.length := Nat.lt_of_succ_lt_succ hj
          have hrec := ih (h.1 :: seen) jj hj' ?_
          · simpa [handlerDeadBits] using hrec
          · rcases hcov with ⟨c, hc, hcv⟩ | ⟨i, hij, hcv⟩
            · exact Or.inl ⟨c, List.mem_cons_of_mem _ hc, by simpa using hcv⟩
            · cases i with
              | zero => exact Or.inl ⟨h.1, List.mem_cons_self _ _, by simpa using hcv⟩
              | succ ii =>
                  exact Or.inr ⟨ii, Nat.lt_of_succ_lt_succ hij, by simpa using hcv⟩

/-- The `finally_block_patterns` fixture from `dead_code_complex.py`: a try
block returning (followed by a dead print), one general handler returning
(followed by a dead print), a finally block that prints and then returns,
and a trailing return after the whole statement. -/
def finallyBlockPatterns : List DStmt :=
  [ .tryS
      [.retS "try block result", .simpleS]
      [(.excT, [.retS "exception result", .simpleS])]
      [.simpleS, .retS "finally result"],
    .retS "end of function" ]

/-- The handler list of the `exception_hierarchy_dead_code` fixture: a
general `Exception` handler followed by a `ValueError` handler. -/
def exceptionHierarchyHandlers : List (ExcTy × List DStmt) :=
  [(.excT, [.retS "caught general exception"]),
   (.valueErr, [.retS "caught specific exception"])]

/-- C3: when the protected region of a try statement exits with a pending
return and the `finally`-equivalent block executes its own return, the
finally return's value wins; and the dead-code flags of the finally block
inside a try statement are exactly the flags of the finally block analyzed
with the try statement's own reachability — independent of the protected
region's and the handlers' control transfers.  On the
`finally_block_patterns` fixture, execution returns the finally block's
value and exactly the statements after the protected returns and after the
whole try statement are flagged dead. -/
theorem C3_finally_override :
    (∀ (body fin : List DStmt) (hs : List (ExcTy × List DStmt)) (v w : String),
       execB body = .returnedO v → execB fin = .returnedO w →
       execS (.tryS body hs fin) = .returnedO w)
    ∧ (∀ (r : Bool) (body fin : List DStmt) (hs : List (ExcTy × List DStmt)),
       (flagsS r (.tryS body hs fin)).drop
           (1 + ((flagsB r body).length + (flagsHs r [] hs).length)) = flagsB r fin)
    ∧ execB finallyBlockPatterns = .returnedO "finally result"
    ∧ flagsB true finallyBlockPatterns =
        [false, false, true, false, false, true, false, false, true] := by
  refine ⟨?_, ?_, by decide, by decide⟩
  · intro body fin hs v w h1 h2
    simp [execS, h1, h2]
  · intro r body fin hs
    rw [Nat.add_comm 1 _]
    simp only [flagsS, List.drop_succ_cons]
    rw [← List.append_assoc, ← List.length_append, List.drop_left]

/-- Witness for C3 at the `finally_block_patterns` fixture's try statement. -/
theorem C3_finally_override_witness :
    execB [DStmt.retS "try block result", DStmt.simpleS] = .returnedO "try block result"
    ∧ execB [DStmt.simpleS, DStmt.retS "finally result"] = .returnedO "finally result"
    ∧ execS (.tryS [.retS "try block result", .simpleS]
        [(.excT, [.retS "exception result", .simpleS])]
        [.simpleS, .retS "finally result"]) = .returnedO "finally result" :=
  ⟨rfl, rfl,
    C3_finally_override.1 [.retS "try block result", .simpleS]
      [.simpleS, .retS "finally result"]
      [(.excT, [.retS "exception result", .simpleS])]
      "try block result" "finally result" rfl rfl⟩

/-- C5: in an ordered handler list, a later handler whose caught category is
strictly subsumed by an earlier handler's category is classified
unreachable; the classification depends only on the caught categories
(replacing every handler body leaves it unchanged); and the try-statement
flag computation consumes exactly these subsumption bits. -/
theorem C5_handler_subsumption :
    (∀ (hs : List (ExcTy × List DStmt)) (i j : Nat) (hij : i < j) (hj : j < hs.length),
       strictCovers (hs.get ⟨i, Nat.lt_trans hij hj⟩).1 (hs.get ⟨j, hj⟩).1 = true →
       (handlerDeadBits [] hs).get? j = some true)
    ∧ (∀ (seen : List ExcTy) (hs : List (ExcTy × List DStmt))
         (f : ExcTy × List DStmt → List DStmt),
       handlerDeadBits seen (hs.map (fun h => (h.1, f h))) = handlerDeadBits seen hs)
    ∧ (∀ (r : Bool) (seen : List ExcTy) (h : ExcTy × List DStmt)
         (t : List (ExcTy × List DStmt)),
       flagsHs r seen (h :: t) =
         (!r || (handlerDeadBits seen (h :: t)).headI) ::
           (flagsB (r && !(handlerDeadBits seen (h :: t)).headI) h.2 ++
             flagsHs r (h.1 :: seen) t)) := by
  refine ⟨?_, ?_, ?_⟩
  · intro hs i j hij hj hsc
    refine handlerDeadBits_covered hs [] j hj (Or.inr ⟨i, hij, ?_⟩)
    simp only [strictCovers, Bool.and_eq_true] at hsc
    exact hsc.1
  · intro seen hs f
    induction hs generalizing seen with
    | nil => rfl
    | cons h t ih => simp [handlerDeadBits, ih]
  · intro r seen h t
    rfl

/-- Witness for C5 at the `exception_hierarchy_dead_code` fixture: the
`Exception` handler strictly subsumes the later `ValueError` handler, which
is therefore flagged unreachable. -/
theorem C5_handler_subsumption_witness :
    strictCovers ExcTy.excT ExcTy.valueErr = true
    ∧ (handlerDeadBits [] exceptionHierarchyHandlers).get? 1 = some true :=
  ⟨by decide,
    C5_handler_subsumption.1 exceptionHierarchyHandlers 0 1 (by decide) (by decide) (by decide)⟩

def isJump : DStmt → Bool
  | .retS _ => true
  | .raiseS _ => true
  | _ => false

theorem jump_terminal {t : DStmt} (h : isJump t = true) : terminalS t = true := by
  cases t with
  | tryS b hs f => simp [isJump] at h
  | simpleS => simp [isJump] at h
  | retS v => rfl
  | raiseS e => rfl
  | breakS => simp [isJump] at h
  | continueS => simp [isJump] at h

theorem jump_flags {t : DStmt} (h : isJump t = true) (r : Bool) : flagsS r t = [!r] := by
  cases t with
  | tryS b hs f => simp [isJump] at h
  | simpleS => rfl
  | retS v => rfl
  | raiseS e => rfl
  | breakS => rfl
  | continueS => rfl

mutual

theorem flagsS_length (r : Bool) (s : DStmt) : (flagsS r s).length = sizeS s :=
  match s with
  | .simpleS => rfl
  | .retS _ => rfl
  | .raiseS _ => rfl
  | .breakS => rfl
  | .continueS => rfl
  | .tryS b hs f => by
      simp [flagsS, sizeS, flagsB_length r b, flagsHs_length r [] hs, flagsB_length r f]
      omega

theorem flagsHs_length (r : Bool) (seen : List ExcTy) (hs : List (ExcTy × List DStmt)) :
    (flagsHs r seen hs).length = sizeHs hs :=
  match hs with
  | [] => rfl
  | h :: t => by
      simp [flagsHs, sizeHs, flagsB_length (r && !(seen.any (fun c => covers c h.1))) h.2,
        flagsHs_length r (h.1 :: seen) t]
      omega

theorem flagsB_length (r : Bool) (b : List DStmt) : (flagsB r b).length = sizeB b :=
  match b with
  | [] => rfl
  | s :: ss => by
      simp [flagsB, sizeB, flagsS_length r s, flagsB_length (r && !terminalS s) ss]

end

mutual

theorem flagsS_false (s : DStmt) : flagsS false s = List.replicate (sizeS s) true :=
  match s with
  | .simpleS => rfl
  | .retS _ => rfl
  | .raiseS _ => rfl
  | .breakS => rfl
  | .continueS => rfl
  | .tryS b hs f => by
      show true :: (flagsB false b ++ (flagsHs false [] hs ++ flagsB false f)) =
        List.replicate (sizeS (.tryS b hs f)) true
      rw [flagsB_false b, flagsHs_false [] hs, flagsB_false f]
      simp only [sizeS]
      rw [Nat.add_comm 1 _, List.replicate_succ, List.replicate_add, List.replicate_add]

theorem flagsHs_false (seen : List ExcTy) (hs : List (ExcTy × List DStmt)) :
    flagsHs false seen hs = List.replicate (sizeHs hs) true :=
  match hs with
  | [] => rfl
  | h :: t => by
      show true :: (flagsB false h.2 ++ flagsHs false (h.1 :: seen) t) =
        List.replicate (sizeHs (h :: t)) true
      rw [flagsB_false h.2, flagsHs_false (h.1 :: seen) t]
      simp only [sizeHs]
      rw [Nat.add_comm 1 _, List.replicate_succ, List.replicate_add]

theorem flagsB_false (b : List DStmt) : flagsB false b = List.replicate (sizeB b) true :=
  match b with
  | [] => rfl
  | s :: ss => by
      show flagsS false s ++ flagsB false ss = List.replicate (sizeB (s :: ss)) true
      rw [flagsS_false s, flagsB_false ss]
      simp only [sizeB]
      rw [List.replicate_add]

end

theorem terminalB_append (xs ys : List DStmt) :
    terminalB (xs ++ ys) = (terminalB xs || terminalB ys) := by
  induction xs with
  | nil => simp [terminalB]
  | cons s ss ih => simp [terminalB, ih, Bool.or_assoc]

theorem flagsB_append (r : Bool) (xs ys : List DStmt) :
    flagsB r (xs ++ ys) = flagsB r xs ++ flagsB (r && !terminalB xs) ys := by
  induction xs generalizing r with
  | nil => simp [flagsB, terminalB]
  | cons s ss ih =>
      simp [flagsB, ih, terminalB, Bool.not_or, Bool.and_assoc, List.append_assoc]

mutual

inductive InsB : List DStmt → List DStmt → Prop
  | here (xs ys : List DStmt) (t : DStmt) (ht : isJump t = true) :
      InsB (xs ++ ys) (xs ++ t :: ys)
  | cons (s : DStmt) {ss ss' : List DStmt} : InsB ss ss' → InsB (s :: ss) (s :: ss')
  | stmt {s s' : DStmt} (ss : List DStmt) : InsS s s' → InsB (s :: ss) (s' :: ss)

inductive InsS : DStmt → DStmt → Prop
  | inBody {b b' : List DStmt} (hs : List (ExcTy × List DStmt)) (fin : List DStmt) :
      InsB b b' → InsS (.tryS b hs fin) (.tryS b' hs fin)
  | inFin {f f' : List DStmt} (b : List DStmt) (hs : List (ExcTy × List DStmt)) :
      InsB f f' → InsS (.tryS b hs f) (.tryS b hs f')
  | inHandler {hs hs' : List (ExcTy × List DStmt)} (b fin : List DStmt) :
      InsH hs hs' → InsS (.tryS b hs fin) (.tryS b hs' fin)

inductive InsH : List (ExcTy × List DStmt) → List (ExcTy × List DStmt) → Prop
  | hereH {b b' : List DStmt} (c : ExcTy) (t : List (ExcTy × List DStmt)) :
      InsB b b' → InsH ((c, b) :: t) ((c, b') :: t)
  | consH (h : ExcTy × List DStmt) {t t' : List (ExcTy × List DStmt)} :
      InsH t t' → InsH (h :: t) (h :: t')

end

mutual

theorem insB_terminal {b b' : List DStmt} (h : InsB b b') :
    terminalB b = true → terminalB b' = true :=
  match h with
  | .here xs ys t ht => by
      intro _
      simp [terminalB_append, terminalB, jump_terminal ht]
  | .cons s hsub => by
      intro hterm
      simp only [terminalB, Bool.or_eq_true] at hterm ⊢
      rcases hterm with h1 | h1
      · exact Or.inl h1
      · exact Or.inr (insB_terminal hsub h1)
  | .stmt ss hsub => by
      intro hterm
      simp only [terminalB, Bool.or_eq_true] at hterm ⊢
      rcases hterm with h1 | h1
      · exact Or.inl (insS_terminal hsub h1)
      · exact Or.inr h1

theorem insS_terminal {s s' : DStmt} (h : InsS s s') :
    terminalS s = true → terminalS s' = true :=
  match h with
  | .inBody hs fin hsub => by
      intro hterm
      simp only [terminalS, Bool.or_eq_true, Bool.and_eq_true] at hterm ⊢
      rcases hterm with h1 | ⟨h1, h2⟩
      · exact Or.inl h1
      · exact Or.inr ⟨insB_terminal hsub h1, h2⟩
  | .inFin b hs hsub => by
      intro hterm
      simp only [terminalS, Bool.or_eq_true, Bool.and_eq_true] at hterm ⊢
      rcases hterm with h1 | ⟨h1, h2⟩
      · exact Or.inl (insB_terminal hsub h1)
      · exact Or.inr ⟨h1, h2⟩
  | .inHandler b fin hsub => by
      intro hterm
      simp only [terminalS, Bool.or_eq_true, Bool.and_eq_true] at hterm ⊢
      rcases hterm with h1 | ⟨h1, h2⟩
      · exact Or.inl h1
      · exact Or.inr ⟨h1, insH_terminal hsub h2⟩

theorem insH_terminal {hs hs' : List (ExcTy × List DStmt)} (h : InsH hs hs') :
    terminalHs hs = true → terminalHs hs' = true :=
  match h with
  | .hereH c t hsub => by
      intro hterm
      simp only [terminalHs, Bool.and_eq_true] at hterm ⊢
      exact ⟨insB_terminal hsub hterm.1, hterm.2⟩
  | .consH hh hsub => by
      intro hterm
      simp only [terminalHs, Bool.and_eq_true] at hterm ⊢
      exact ⟨hterm.1, insH_terminal hsub hterm.2⟩

end

/-- Monotone correspondence between the dead flags of a block and those of
the block with one statement inserted: flags of untouched statements map
across the insertion point without ever turning from dead to live. -/
def DeadMono (old new : List Bool) : Prop :=
  ∃ k, k ≤ old.length ∧ new.length = old.length + 1 ∧
    ∀ i : Nat, old[i]? = some true → new[if i < k then i else i + 1]? = some true

theorem dm_prepend (p : List Bool) {o n : List Bool} (h : DeadMono o n) :
    DeadMono (p ++ o) (p ++ n) := by
  obtain ⟨k, hk, hlen, hmap⟩ := h
  refine ⟨p.length + k, ?_, ?_, ?_⟩
  · simp only [List.length_append]; omega
  · simp only [List.length_append, hlen]; omega
  · intro i hi
    by_cases hip : i < p.length
    · have hif : i < p.length + k := by omega
      rw [if_pos hif]
      rw [List.getElem?_append_left hip] at hi ⊢
      exact hi
    · have hip' : p.length ≤ i := Nat.le_of_not_lt hip
      rw [List.getElem?_append_right hip'] at hi
      have hres := hmap (i - p.length) hi
      by_cases hj : i - p.length < k
      · have hif : i < p.length + k := by omega
        rw [if_pos hif, List.getElem?_append_right hip']
        rw [if_pos hj] at hres
        exact hres
      · have hif : ¬ i < p.length + k := by omega
        rw [if_neg hif, List.getElem?_append_right (by omega : p.length ≤ i + 1)]
        rw [if_neg hj] at hres
        have heq : i + 1 - p.length = (i - p.length) + 1 := by omega
        rw [heq]
        exact hres

theorem dm_append {o n q q' : List Bool} (h : DeadMono o n)
    (hlen : q'.length = q.length)
    (hq : ∀ i : Nat, q[i]? = some true → q'[i]? = some true) :
    DeadMono (o ++ q) (n ++ q') := by
  obtain ⟨k, hk, hnlen, hmap⟩ := h
  refine ⟨k, ?_, ?_, ?_⟩
  · simp only [List.length_append]; omega
  · simp only [List.length_append, hnlen, hlen]; omega
  · intro i hi
    by_cases hio : i < o.length
    · rw [List.getElem?_append_left hio] at hi
      have hres := hmap i hi
      by_cases hik : i < k
      · rw [if_pos hik] at hres ⊢
        rw [List.getElem?_append_left (by omega : i < n.length)]
        exact hres
      · rw [if_neg hik] at hres ⊢
        rw [List.getElem?_append_left (by omega : i + 1 < n.length)]
        exact hres
    · have hio' : o.length ≤ i := Nat.le_of_not_lt hio
      rw [List.getElem?_append_right hio'] at hi
      have hqi := hq _ hi
      have hik : ¬ i < k := by omega
      rw [if_neg hik]
      rw [List.getElem?_append_right (by omega : n.length ≤ i + 1)]
      have heq : i + 1 - n.length = i - o.length := by omega
      rw [heq]
      exact hqi

theorem flagsB_false_mono (r : Bool) (ss : List DStmt) :
    ∀ i : Nat, (flagsB r ss)[i]? = some true → (flagsB false ss)[i]? = some true := by
  intro i hi
  have hlt : i < (flagsB r ss).length := by
    by_contra hc
    rw [List.getElem?_eq_none (Nat.le_of_not_lt hc)] at hi
    exact Option.noConfusion hi
  rw [flagsB_length] at hlt
  rw [flagsB_false ss, List.getElem?_replicate, if_pos hlt]

theorem flagsB_reach_mono {r1 r2 : Bool} (himp : r2 = true → r1 = true) (ss : List DStmt) :
    ∀ i : Nat, (flagsB r1 ss)[i]? = some true → (flagsB r2 ss)[i]? = some true := by
  cases r2 with
  | false => exact flagsB_false_mono r1 ss
  | true =>
      have h1 := himp rfl
      subst h1
      exact fun i hi => hi

theorem dm_insert_jump (r2 : Bool) (t : DStmt) (ht : isJump t = true) (ys : List DStmt) :
    DeadMono (flagsB r2 ys) (flagsB r2 (t :: ys)) := by
  have he : flagsB r2 (t :: ys) = flagsS r2 t ++ flagsB (r2 && !terminalS t) ys := rfl
  rw [he, jump_flags ht, jump_terminal ht]
  simp only [Bool.not_true, Bool.and_false]
  refine ⟨0, Nat.zero_le _, ?_, ?_⟩
  · simp only [List.length_append, List.length_cons, List.length_nil, flagsB_length]
    omega
  · intro i hi
    rw [if_neg (by omega : ¬ i < 0)]
    rw [List.getElem?_append_right (by simp : (([!r2] : List Bool)).length ≤ i + 1)]
    have heq : i + 1 - ([!r2] : List Bool).length = i := by simp
    rw [heq]
    exact flagsB_false_mono r2 ys i hi

mutual

theorem insB_mono {b b' : List DStmt} (h : InsB b b') (r : Bool) :
    DeadMono (flagsB r b) (flagsB r b') :=
  match b, b', h with
  | _, _, .here xs ys t ht => by
      rw [flagsB_append r xs ys, flagsB_append r xs (t :: ys)]
      exact dm_prepend _ (dm_insert_jump _ t ht ys)
  | _, _, @InsB.cons s ss ss' hsub => by
      show DeadMono (flagsS r s ++ flagsB (r && !terminalS s) ss)
        (flagsS r s ++ flagsB (r && !terminalS s) ss')
      exact dm_prepend _ (insB_mono hsub _)
  | _, _, @InsB.stmt s s' ss hsub => by
      show DeadMono (flagsS r s ++ flagsB (r && !terminalS s) ss)
        (flagsS r s' ++ flagsB (r && !terminalS s') ss)
      refine dm_append (insS_mono hsub r) ?_ ?_
      · rw [flagsB_length, flagsB_length]
      · refine flagsB_reach_mono ?_ ss
        intro hnew
        simp only [Bool.and_eq_true, Bool.not_eq_true'] at hnew ⊢
        refine ⟨hnew.1, ?_⟩
        by_contra hc
        rw [Bool.not_eq_false] at hc
        have hterm := insS_terminal hsub hc
        rw [hterm] at hnew
        exact Bool.noConfusion hnew.2

theorem insS_mono {s s' : DStmt} (h : InsS s s') (r : Bool) :
    DeadMono (flagsS r s) (flagsS r s') :=
  match s, s', h with
  | _, _, @InsS.inBody b b' hs fin hsub => by
      show DeadMono ((!r) :: (flagsB r b ++ (flagsHs r [] hs ++ flagsB r fin)))
        ((!r) :: (flagsB r b' ++ (flagsHs r [] hs ++ flagsB r fin)))
      have e1 : ∀ (x y : List Bool), (!r) :: (x ++ y) = ([!r] ++ x) ++ y := by
        intro x y; simp
      rw [e1, e1]
      exact dm_append (dm_prepend [!r] (insB_mono hsub r)) rfl (fun i hi => hi)
  | _, _, @InsS.inFin f f' b hs hsub => by
      show DeadMono ((!r) :: (flagsB r b ++ (flagsHs r [] hs ++ flagsB r f)))
        ((!r) :: (flagsB r b ++ (flagsHs r [] hs ++ flagsB r f')))
      have e1 : ∀ (x : List Bool), (!r) :: (flagsB r b ++ (flagsHs r [] hs ++ x)) =
          (((!r) :: flagsB r b) ++ flagsHs r [] hs) ++ x := by
        intro x; simp
      rw [e1, e1]
      exact dm_prepend _ (insB_mono hsub r)
  | _, _, @InsS.inHandler hs hs' b fin hsub => by
      show DeadMono ((!r) :: (flagsB r b ++ (flagsHs r [] hs ++ flagsB r fin)))
        ((!r) :: (flagsB r b ++ (flagsHs r [] hs' ++ flagsB r fin)))
      have e1 : ∀ (x : List Bool), (!r) :: (flagsB r b ++ (x ++ flagsB r fin)) =
          (((!r) :: flagsB r b) ++ x) ++ flagsB r fin := by
        intro x; simp
      rw [e1, e1]
      exact dm_append (dm_prepend _ (insH_mono hsub r [])) rfl (fun i hi => hi)

theorem insH_mono {hs hs' : List (ExcTy × List DStmt)} (h : InsH hs hs') (r : Bool)
    (seen : List ExcTy) : DeadMono (flagsHs r seen hs) (flagsHs r seen hs') :=
  match hs, hs', h with
  | _, _, @InsH.hereH b b' c t hsub => by
      show DeadMono
        ((!r || seen.any (fun x => covers x c)) ::
          (flagsB (r && !(seen.any (fun x => covers x c))) b ++ flagsHs r (c :: seen) t))
        ((!r || seen.any (fun x => covers x c)) ::
          (flagsB (r && !(seen.any (fun x => covers x c))) b' ++ flagsHs r (c :: seen) t))
      have e1 : ∀ (x : List Bool),
          ((!r || seen.any (fun z => covers z c)) : Bool) :: (x ++ flagsHs r (c :: seen) t) =
          ([(!r || seen.any (fun z => covers z c) : Bool)] ++ x) ++ flagsHs r (c :: seen) t := by
        intro x; simp
      rw [e1, e1]
      exact dm_append (dm_prepend _ (insB_mono hsub _)) rfl (fun i hi => hi)
  | _, _, @InsH.consH hh t t' hsub => by
      show DeadMono
        ((!r || seen.any (fun x => covers x hh.1)) ::
          (flagsB (r && !(seen.any (fun x => covers x hh.1))) hh.2 ++ flagsHs r (hh.1 :: seen) t))
        ((!r || seen.any (fun x => covers x hh.1)) ::
          (flagsB (r && !(seen.any (fun x => covers x hh.1))) hh.2 ++ flagsHs r (hh.1 :: seen) t'))
      have e1 : ∀ (x : List Bool),
          ((!r || seen.any (fun z => covers z hh.1)) : Bool) ::
            (flagsB (r && !(seen.any (fun z => covers z hh.1))) hh.2 ++ x) =
          ((!r || seen.any (fun z => covers z hh.1) : Bool) ::
            flagsB (r && !(seen.any (fun z => covers z hh.1))) hh.2) ++ x := by
        intro x; simp
      rw [e1, e1]
      exact dm_prepend _ (insH_mono hsub r (hh.1 :: seen))

end

/-- C4: the dead-code classification is monotonic under inserting an
unconditional return or raise anywhere in a basic block of the function
(also inside a nested protected region, handler body or finally block):
every statement classified unreachable before the insertion stays
unreachable after it, at its shifted position; the insertion only ever adds
unreachable statements.  `k` is the flattened position of the insertion;
`r` is the reachability of the enclosing block's entry. -/
theorem C4_dead_code_monotonic (r : Bool) (b b' : List DStmt) (h : InsB b b') :
    ∃ k, k ≤ (flagsB r b).length ∧ (flagsB r b').length = (flagsB r b).length + 1 ∧
      ∀ i : Nat, (flagsB r b)[i]? = some true →
        (flagsB r b')[if i < k then i else i + 1]? = some true :=
  insB_mono h r

/-- Witness for C4 at the `unreachable_after_raise` fixture shape: inserting
an unconditional raise after the first statement turns the trailing
statements dead while keeping every previously dead statement dead. -/
theorem C4_dead_code_monotonic_witness :
    isJump (DStmt.raiseS .valueErr) = true
    ∧ flagsB true [DStmt.simpleS, DStmt.simpleS, DStmt.retS "v"] = [false, false, false]
    ∧ flagsB true [DStmt.simpleS, DStmt.raiseS .valueErr, DStmt.simpleS, DStmt.retS "v"] =
        [false, false, true, true]
    ∧ (∃ k, k ≤ (flagsB true [DStmt.simpleS, DStmt.simpleS, DStmt.retS "v"]).length ∧
        (flagsB true [DStmt.simpleS, DStmt.raiseS .valueErr, DStmt.simpleS,
          DStmt.retS "v"]).length =
          (flagsB true [DStmt.simpleS, DStmt.simpleS, DStmt.retS "v"]).length + 1 ∧
        ∀ i : Nat, (flagsB true [DStmt.simpleS, DStmt.simpleS, DStmt.retS "v"])[i]? =
            some true →
          (flagsB true [DStmt.simpleS, DStmt.raiseS .valueErr, DStmt.simpleS,
            DStmt.retS "v"])[if i < k then i else i + 1]? = some true) :=
  ⟨rfl, by decide, by decide,
    C4_dead_code_monotonic true _ _ (InsB.here [.simpleS] [.simpleS, .retS "v"] (.raiseS .valueErr) rfl)⟩

/-- Binary operators of the clone detector's function-body language. -/
inductive BinOp
  | addO | subO | mulO | eqO | neO | leO | ltO | gtO | geO | andO | orO | inO
deriving DecidableEq

/-- Modelled from the spec: the expression shapes the clone detector's
normalizer distinguishes — literals, identifiers, binary operations, calls
by arity, attribute access, indexing and slicing. -/
inductive PExpr
  | intLit (n : Int)
  | strLit (s : String)
  | boolLit (b : Bool)
  | noneLit
  | varE (x : String)
  | binop (o : BinOp) (a b : PExpr)
  | call0 (f : PExpr)
  | call1 (f : PExpr) (a : PExpr)
  | call2 (f : PExpr) (a b : PExpr)
  | attr (e : PExpr) (fieldName : String)
  | index (a i : PExpr)
  | sliceFrom (a i : PExpr)

/-- Modelled from the spec: the statement shapes the clone detector
normalizes — assignments, attribute assignments, returns, expression
statements, loops and conditionals. -/
inductive PStmt
  | assign (x : String) (e : PExpr)
  | setAttr (o : PExpr) (fieldName : String) (e : PExpr)
  | ret (e : PExpr)
  | exprS (e : PExpr)
  | passS
  | forIn (x : String) (it : PExpr) (body : List PStmt)
  | whileL (c : PExpr) (body : List PStmt)
  | ifS (c : PExpr) (thn els : List PStmt)

/-- A function or method as seen by the clone detector. -/
structure PFunc where
  fname : String
  params : List String
  body : List PStmt

/-- All identifiers of an expression, in traversal order. -/
def namesE : PExpr → List String
  | .intLit _ => []
  | .strLit _ => []
  | .boolLit _ => []
  | .noneLit => []
  | .varE x => [x]
  | .binop _ a b => namesE a ++ namesE b
  | .call0 f => namesE f
  | .call1 f a => namesE f ++ namesE a
  | .call2 f a b => namesE f ++ (namesE a ++ namesE b)
  | .attr e fn => namesE e ++ [fn]
  | .index a i => namesE a ++ namesE i
  | .sliceFrom a i => namesE a ++ namesE i

mutual

def namesS : PStmt → List String
  | .assign x e => x :: namesE e
  | .setAttr o fn e => namesE o ++ (fn :: namesE e)
  | .ret e => namesE e
  | .exprS e => namesE e
  | .passS => []
  | .forIn x it b => x :: (namesE it ++ namesB b)
  | .whileL c b => namesE c ++ namesB b
  | .ifS c t e => namesE c ++ (namesB t ++ namesB e)

def namesB : List PStmt → List String
  | [] => []
  | s :: ss => namesS s ++ namesB ss

end

/-- Node-kind markers of the normalized token sequence; call arity is part
of the kind. -/
inductive NodeKind
  | litK | binopK | call0K | call1K | call2K | attrK | indexK | sliceK
  | assignK | setAttrK | retK | exprK | passK | forK | whileK | ifK | elseK
deriving DecidableEq

/-- Modelled from the spec: one token of a CloneFingerprint — literals are
abstracted to a bare literal marker, identifiers become positional
placeholders, statement kind, nesting and operator/call shape are kept. -/
inductive Tok
  | tname (i : Nat)
  | topen (k : NodeKind)
  | tclose
  | top (o : BinOp)
deriving DecidableEq

/-- Serializes an expression to normalized tokens; identifiers are replaced
by their first-occurrence index in `ctx`. -/
def serE (ctx : List String) : PExpr → List Tok
  | .intLit _ => [.topen .litK, .tclose]
  | .strLit _ => [.topen .litK, .tclose]
  | .boolLit _ => [.topen .litK, .tclose]
  | .noneLit => [.topen .litK, .tclose]
  | .varE x => [.tname (ctx.indexOf x)]
  | .binop o a b => .topen .binopK :: .top o :: (serE ctx a ++ (serE ctx b ++ [.tclose]))
  | .call0 f => .topen .call0K :: (serE ctx f ++ [.tclose])
  | .call1 f a => .topen .call1K :: (serE ctx f ++ (serE ctx a ++ [.tclose]))
  | .call2 f a b =>
      .topen .call2K :: (serE ctx f ++ (serE ctx a ++ (serE ctx b ++ [.tclose])))
  | .attr e fn => .topen .attrK :: (serE ctx e ++ [.tname (ctx.indexOf fn), .tclose])
  | .index a i => .topen .indexK :: (serE ctx a ++ (serE ctx i ++ [.tclose]))
  | .sliceFrom a i => .topen .sliceK :: (serE ctx a ++ (serE ctx i ++ [.tclose]))

mutual

def serS (ctx : List String) : PStmt → List Tok
  | .assign x e => .topen .assignK :: .tname (ctx.indexOf x) :: (serE ctx e ++ [.tclose])
  | .setAttr o fn e =>
      .topen .setAttrK ::
        (serE ctx o ++ (.tname (ctx.indexOf fn) :: (serE ctx e ++ [.tclose])))
  | .ret e => .topen .retK :: (serE ctx e ++ [.tclose])
  | .exprS e => .topen .exprK :: (serE ctx e ++ [.tclose])
  | .passS => [.topen .passK, .tclose]
  | .forIn x it b =>
      .topen .forK :: .tname (ctx.indexOf x) :: (serE ctx it ++ (serB ctx b ++ [.tclose]))
  | .whileL c b => .topen .whileK :: (serE ctx c ++ (serB ctx b ++ [.tclose]))
  | .ifS c t e =>
      .topen .ifK :: (serE ctx c ++ (serB ctx t ++ (.topen .elseK :: (serB ctx e ++ [.tclose]))))

def serB (ctx : List String) : List PStmt → List Tok
  | [] => []
  | s :: ss => serS ctx s ++ serB ctx ss

end

/-- The identifier context of a function: parameters followed by body
identifiers, first occurrences in order. -/
def ctxOf (f : PFunc) : List String :=
  firstOccs (f.params ++ namesB f.body)

/-- Modelled from the spec: the CloneFingerprint of a function — the
normalized token/statement sequence of its body, with literal values and
identifiers abstracted away but control structure, operator kinds and call
arity preserved. -/
def fingerprint (f : PFunc) : List Tok :=
  serB (ctxOf f) f.body

mutual

def cntS : PStmt → Nat
  | .forIn _ _ b => 1 + cntB b
  | .whileL _ b => 1 + cntB b
  | .ifS _ t e => 1 + (cntB t + cntB e)
  | _ => 1

def cntB : List PStmt → Nat
  | [] => 0
  | s :: ss => cntS s + cntB ss

end

mutual

def brS : PStmt → Nat
  | .forIn _ _ b => 1 + brB b
  | .whileL _ b => 1 + brB b
  | .ifS _ t e => 1 + (brB t + brB e)
  | _ => 0

def brB : List PStmt → Nat
  | [] => 0
  | s :: ss => brS s + brB ss

end

/-- Renames every identifier by `ρ` and rewrites literal values by
`li`, `ls` and `lb`, preserving all structure. -/
def trE (ρ : String → String) (li : Int → Int) (ls : String → String) (lb : Bool → Bool) :
    PExpr → PExpr
  | .intLit n => .intLit (li n)
  | .strLit s => .strLit (ls s)
  | .boolLit b => .boolLit (lb b)
  | .noneLit => .noneLit
  | .varE x => .varE (ρ x)
  | .binop o a b => .binop o (trE ρ li ls lb a) (trE ρ li ls lb b)
  | .call0 f => .call0 (trE ρ li ls lb f)
  | .call1 f a => .call1 (trE ρ li ls lb f) (trE ρ li ls lb a)
  | .call2 f a b => .call2 (trE ρ li ls lb f) (trE ρ li ls lb a) (trE ρ li ls lb b)
  | .attr e fn => .attr (trE ρ li ls lb e) (ρ fn)
  | .index a i => .index (trE ρ li ls lb a) (trE ρ li ls lb i)
  | .sliceFrom a i => .sliceFrom (trE ρ li ls lb a) (trE ρ li ls lb i)

mutual

def trS (ρ : String → String) (li : Int → Int) (ls : String → String) (lb : Bool → Bool) :
    PStmt → PStmt
  | .assign x e => .assign (ρ x) (trE ρ li ls lb e)
  | .setAttr o fn e => .setAttr (trE ρ li ls lb o) (ρ fn) (trE ρ li ls lb e)
  | .ret e => .ret (trE ρ li ls lb e)
  | .exprS e => .exprS (trE ρ li ls lb e)
  | .passS => .passS
  | .forIn x it b => .forIn (ρ x) (trE ρ li ls lb it) (trB ρ li ls lb b)
  | .whileL c b => .whileL (trE ρ li ls lb c) (trB ρ li ls lb b)
  | .ifS c t e => .ifS (trE ρ li ls lb c) (trB ρ li ls lb t) (trB ρ li ls lb e)

def trB (ρ : String → String) (li : Int → Int) (ls : String → String) (lb : Bool → Bool) :
    List PStmt → List PStmt
  | [] => []
  | s :: ss => trS ρ li ls lb s :: trB ρ li ls lb ss

end

def trF (ρ : String → String) (li : Int → Int) (ls : String → String) (lb : Bool → Bool)
    (f : PFunc) : PFunc :=
  ⟨f.fname, f.params.map ρ, trB ρ li ls lb f.body⟩

/-- Clone-detector configuration: minimum body statement count and the
tolerance of the Type-4 size/branch statistics comparison. -/
structure CloneConfig where
  minSize : Nat
  tol : Nat

def defaultCloneConfig : CloneConfig := ⟨2, 2⟩

/-- Modelled from the spec: two functions form a Type-1/2 clone pair when
their normalized fingerprints match exactly and both bodies meet the
minimum-size guard. -/
def isType12Pair (cfg : CloneConfig) (f g : PFunc) : Bool :=
  (fingerprint f == fingerprint g) && (decide (cfg.minSize ≤ cntB f.body)
    && decide (cfg.minSize ≤ cntB g.body))

def beqVar (fn : String) : PExpr → Bool
  | .varE x => x == fn
  | _ => false

/-- Whether an expression contains a call whose callee is the name `fn`
(a recursive self-call when `fn` is the enclosing function). -/
def containsSelfCall (fn : String) : PExpr → Bool
  | .intLit _ => false
  | .strLit _ => false
  | .boolLit _ => false
  | .noneLit => false
  | .varE _ => false
  | .binop _ a b => containsSelfCall fn a || containsSelfCall fn b
  | .call0 f => beqVar fn f || containsSelfCall fn f
  | .call1 f a => beqVar fn f || (containsSelfCall fn f || containsSelfCall fn a)
  | .call2 f a b =>
      beqVar fn f || (containsSelfCall fn f ||
        (containsSelfCall fn a || containsSelfCall fn b))
  | .attr e _ => containsSelfCall fn e
  | .index a i => containsSelfCall fn a || containsSelfCall fn i
  | .sliceFrom a i => containsSelfCall fn a || containsSelfCall fn i

/-- Modelled from the spec: a high-level operation category of the coarse
structural signature; an aggregate computation is recorded with its
combining operator whether it is realized by a loop accumulation or by a
recursive self-call (spec section 4.4 treats these as the same observable
behavior realized via different control constructs; section 9 leaves the
exact formula as a documented heuristic choice). -/
inductive OpCat
  | aggregate (o : BinOp)
deriving DecidableEq

def coarseE (fn : String) : PExpr → List OpCat
  | .binop o a b =>
      if containsSelfCall fn a || containsSelfCall fn b then [.aggregate o] else []
  | _ => []

mutual

def coarseS (fn : String) : PStmt → List OpCat
  | .assign x e =>
      match e with
      | .binop o (.varE y) _ => if y == x then [.aggregate o] else coarseE fn e
      | .binop o _ (.varE y) => if y == x then [.aggregate o] else coarseE fn e
      | _ => coarseE fn e
  | .setAttr _ _ e => coarseE fn e
  | .ret e => coarseE fn e
  | .exprS e => coarseE fn e
  | .passS => []
  | .forIn _ _ b => coarseB fn b
  | .whileL _ b => coarseB fn b
  | .ifS _ t e => coarseB fn t ++ coarseB fn e

def coarseB (fn : String) : List PStmt → List OpCat
  | [] => []
  | s :: ss => coarseS fn s ++ coarseB fn ss

end

/-- Modelled from the spec: the coarse structural signature of a function —
the sequence of high-level operation categories of its body. -/
def coarseSig (f : PFunc) : List OpCat :=
  coarseB f.fname f.body

def natDist (a b : Nat) : Nat := max a b - min a b

/-- Modelled from the spec: two functions form a Type-4 pair when their fine
fingerprints differ but their nonempty coarse signatures agree and their
size and branch statistics match within tolerance, both meeting the
minimum-size guard. -/
def isType4Pair (cfg : CloneConfig) (f g : PFunc) : Bool :=
  (fingerprint f != fingerprint g) && ((coarseSig f == coarseSig g)
    && ((coarseSig f != ([] : List OpCat))
    && (decide (natDist (cntB f.body) (cntB g.body) ≤ cfg.tol)
    && (decide (natDist (brB f.body) (brB g.body) ≤ cfg.tol)
    && (decide (cfg.minSize ≤ cntB f.body) && decide (cfg.minSize ≤ cntB g.body))))))

/-- A class declaration as seen by the clone detector: decorators, typed
field declarations and methods. -/
structure PClass where
  cname : String
  decorators : List String
  fields : List (String × String)
  methods : List PFunc

/-- Modelled from the spec: the recognized data-modeling annotations. -/
def dataModelDecorators : List String := ["dataclass", "BaseModel"]

def isDataModel (c : PClass) : Bool :=
  c.decorators.any (fun d => dataModelDecorators.contains d)

def methodFingerprints (cfg : CloneConfig) (c : PClass) : List (List Tok) :=
  (c.methods.filter (fun m => decide (cfg.minSize ≤ cntB m.body))).map fingerprint

def fieldTokens (c : PClass) : List Nat :=
  c.fields.map (fun _ => 1)

/-- Modelled from the spec: for two classes both carrying recognized
data-modeling annotations, the declaration portion contributes reduced (here
zero) weight, so the pair is a clone only when some sufficiently large
method bodies share a fingerprint; the distinguishing signal is method-body
similarity, not declaration shape. -/
def isClassClonePair (cfg : CloneConfig) (c1 c2 : PClass) : Bool :=
  if isDataModel c1 && isDataModel c2 then
    (methodFingerprints cfg c1).any (fun fp => (methodFingerprints cfg c2).contains fp)
  else
    (fieldTokens c1 == fieldTokens c2)
      && ((c1.methods.map fingerprint) == (c2.methods.map fingerprint))

/-- The `sum_numbers` function of `clones/type4/sum_iterative.py`. -/
def sumNumbersIterative : PFunc :=
  ⟨"sum_numbers", ["numbers"],
    [.assign "total" (.intLit 0),
     .forIn "num" (.varE "numbers")
       [.assign "total" (.binop .addO (.varE "total") (.varE "num"))],
     .ret (.varE "total")]⟩

/-- The `sum_numbers` function of `clones/type4/sum_recursive.py`. -/
def sumNumbersRecursive : PFunc :=
  ⟨"sum_numbers", ["numbers"],
    [.ifS (.binop .eqO (.call1 (.varE "len") (.varE "numbers")) (.intLit 0))
       [.ret (.intLit 0)] [],
     .ret (.binop .addO (.index (.varE "numbers") (.intLit 0))
       (.call1 (.varE "sum_numbers") (.sliceFrom (.varE "numbers") (.intLit 1))))]⟩

/-- The `UserProfile` dataclass of `frameworks/dataclasses_similar.py`. -/
def userProfile : PClass :=
  ⟨"UserProfile", ["dataclass"],
    [("username", "str"), ("email", "str"), ("display_name", "Optional"),
     ("created_at", "datetime"), ("is_active", "bool")],
    [⟨"validate_email", ["self"],
       [.ret (.binop .andO
          (.binop .inO (.strLit "@") (.attr (.varE "self") "email"))
          (.binop .inO (.strLit ".")
            (.index (.call1 (.attr (.attr (.varE "self") "email") "split") (.strLit "@"))
              (.intLit 1))))]⟩,
     ⟨"deactivate", ["self"], [.setAttr (.varE "self") "is_active" (.boolLit false)]⟩]⟩

/-- The `ProductInventory` dataclass of `frameworks/dataclasses_similar.py`. -/
def productInventory : PClass :=
  ⟨"ProductInventory", ["dataclass"],
    [("product_id", "str"), ("sku", "str"), ("quantity", "int"),
     ("reorder_threshold", "int"), ("warehouse_location", "Optional")],
    [⟨"needs_reorder", ["self"],
       [.ret (.binop .leO (.attr (.varE "self") "quantity")
          (.attr (.varE "self") "reorder_threshold"))]⟩,
     ⟨"update_quantity", ["self", "delta"],
       [.setAttr (.varE "self") "quantity"
          (.binop .addO (.attr (.varE "self") "quantity") (.varE "delta")),
        .ifS (.binop .ltO (.attr (.varE "self") "quantity") (.intLit 0))
          [.setAttr (.varE "self") "quantity" (.intLit 0)] []]⟩]⟩


theorem beq_map_inj {ρ : String → String} (hρ : Function.Injective ρ) (a x : String) :
    (ρ a == ρ x) = (a == x) := by
  by_cases h : a = x
  · subst h; simp
  · have hne : ρ a ≠ ρ x := fun hc => h (hρ hc)
    simp [h, hne]

theorem indexOf_map_inj {ρ : String → String} (hρ : Function.Injective ρ)
    (x : String) (l : List String) :
    (l.map ρ).indexOf (ρ x) = l.indexOf x := by
  induction l with
  | nil => rfl
  | cons a t ih =>
      simp only [List.map_cons, List.indexOf_cons, beq_map_inj hρ, ih]

theorem contains_map_inj {ρ : String → String} (hρ : Function.Injective ρ)
    (x : String) (l : List String) :
    (l.map ρ).contains (ρ x) = l.contains x := by
  induction l with
  | nil => rfl
  | cons a t ih =>
      simp only [List.map_cons, List.contains_cons, beq_map_inj hρ, ih]

theorem firstOccsAux_map {ρ : String → String} (hρ : Function.Injective ρ) :
    ∀ (l seen : List String),
      firstOccsAux (seen.map ρ) (l.map ρ) = (firstOccsAux seen l).map ρ := by
  intro l
  induction l with
  | nil => intro seen; rfl
  | cons a t ih =>
      intro seen
      simp only [List.map_cons, firstOccsAux, contains_map_inj hρ]
      by_cases h : seen.contains a = true
      · rw [if_pos h, if_pos h, ih seen]
      · rw [if_neg h, if_neg h]
        have := ih (a :: seen)
        simp only [List.map_cons] at this
        rw [this]
        rfl

theorem firstOccs_map {ρ : String → String} (hρ : Function.Injective ρ)
    (l : List String) : firstOccs (l.map ρ) = (firstOccs l).map ρ := by
  have := firstOccsAux_map hρ l []
  simpa [firstOccs] using this

theorem namesE_tr (ρ : String → String) (li : Int → Int) (ls : String → String)
    (lb : Bool → Bool) : ∀ e : PExpr, namesE (trE ρ li ls lb e) = (namesE e).map ρ := by
  intro e
  induction e with
  | intLit n => rfl
  | strLit s => rfl
  | boolLit b => rfl
  | noneLit => rfl
  | varE x => rfl
  | binop o a b iha ihb => simp [trE, namesE, iha, ihb]
  | call0 f ihf => simp [trE, namesE, ihf]
  | call1 f a ihf iha => simp [trE, namesE, ihf, iha]
  | call2 f a b ihf iha ihb => simp [trE, namesE, ihf, iha, ihb]
  | attr e fn ihe => simp [trE, namesE, ihe]
  | index a i iha ihi => simp [trE, namesE, iha, ihi]
  | sliceFrom a i iha ihi => simp [trE, namesE, iha, ihi]

mutual

theorem namesS_tr (ρ : String → String) (li : Int → Int) (ls : String → String)
    (lb : Bool → Bool) : ∀ s : PStmt, namesS (trS ρ li ls lb s) = (namesS s).map ρ
  | .assign x e => by simp [trS, namesS, namesE_tr]
  | .setAttr o fn e => by simp [trS, namesS, namesE_tr]
  | .ret e => by simp [trS, namesS, namesE_tr]
  | .exprS e => by simp [trS, namesS, namesE_tr]
  | .passS => rfl
  | .forIn x it b => by simp [trS, namesS, namesE_tr, namesB_tr ρ li ls lb b]
  | .whileL c b => by simp [trS, namesS, namesE_tr, namesB_tr ρ li ls lb b]
  | .ifS c t e => by
      simp [trS, namesS, namesE_tr, namesB_tr ρ li ls lb t, namesB_tr ρ li ls lb e]

theorem namesB_tr (ρ : String → String) (li : Int → Int) (ls : String → String)
    (lb : Bool → Bool) : ∀ b : List PStmt, namesB (trB ρ li ls lb b) = (namesB b).map ρ
  | [] => rfl
  | s :: ss => by simp [trB, namesB, namesS_tr ρ li ls lb s, namesB_tr ρ li ls lb ss]

end

theorem serE_tr {ρ : String → String} (hρ : Function.Injective ρ) (li : Int → Int)
    (ls : String → String) (lb : Bool → Bool) (ctx : List String) :
    ∀ e : PExpr, serE (ctx.map ρ) (trE ρ li ls lb e) = serE ctx e := by
  intro e
  induction e with
  | intLit n => rfl
  | strLit s => rfl
  | boolLit b => rfl
  | noneLit => rfl
  | varE x => simp [trE, serE, indexOf_map_inj hρ]
  | binop o a b iha ihb => simp [trE, serE, iha, ihb]
  | call0 f ihf => simp [trE, serE, ihf]
  | call1 f a ihf iha => simp [trE, serE, ihf, iha]
  | call2 f a b ihf iha ihb => simp [trE, serE, ihf, iha, ihb]
  | attr e fn ihe => simp [trE, serE, ihe, indexOf_map_inj hρ]
  | index a i iha ihi => simp [trE, serE, iha, ihi]
  | sliceFrom a i iha ihi => simp [trE, serE, iha, ihi]

mutual

theorem serS_tr {ρ : String → String} (hρ : Function.Injective ρ) (li : Int → Int)
    (ls : String → String) (lb : Bool → Bool) (ctx : List String) :
    ∀ s : PStmt, serS (ctx.map ρ) (trS ρ li ls lb s) = serS ctx s
  | .assign x e => by simp [trS, serS, serE_tr hρ li ls lb ctx, indexOf_map_inj hρ]
  | .setAttr o fn e => by simp [trS, serS, serE_tr hρ li ls lb ctx, indexOf_map_inj hρ]
  | .ret e => by simp [trS, serS, serE_tr hρ li ls lb ctx]
  | .exprS e => by simp [trS, serS, serE_tr hρ li ls lb ctx]
  | .passS => rfl
  | .forIn x it b => by
      simp [trS, serS, serE_tr hρ li ls lb ctx, indexOf_map_inj hρ,
        serB_tr hρ li ls lb ctx b]
  | .whileL c b => by
      simp [trS, serS, serE_tr hρ li ls lb ctx, serB_tr hρ li ls lb ctx b]
  | .ifS c t e => by
      simp [trS, serS, serE_tr hρ li ls lb ctx, serB_tr hρ li ls lb ctx t,
        serB_tr hρ li ls lb ctx e]

theorem serB_tr {ρ : String → String} (hρ : Function.Injective ρ) (li : Int → Int)
    (ls : String → String) (lb : Bool → Bool) (ctx : List String) :
    ∀ b : List PStmt, serB (ctx.map ρ) (trB ρ li ls lb b) = serB ctx b
  | [] => rfl
  | s :: ss => by
      simp [trB, serB, serS_tr hρ li ls lb ctx s, serB_tr hρ li ls lb ctx ss]

end

mutual

theorem cntS_tr (ρ : String → String) (li : Int → Int) (ls : String → String)
    (lb : Bool → Bool) : ∀ s : PStmt, cntS (trS ρ li ls lb s) = cntS s
  | .assign x e => rfl
  | .setAttr o fn e => rfl
  | .ret e => rfl
  | .exprS e => rfl
  | .passS => rfl
  | .forIn x it b => by simp [trS, cntS, cntB_tr ρ li ls lb b]
  | .whileL c b => by simp [trS, cntS, cntB_tr ρ li ls lb b]
  | .ifS c t e => by simp [trS, cntS, cntB_tr ρ li ls lb t, cntB_tr ρ li ls lb e]

theorem cntB_tr (ρ : String → String) (li : Int → Int) (ls : String → String)
    (lb : Bool → Bool) : ∀ b : List PStmt, cntB (trB ρ li ls lb b) = cntB b
  | [] => rfl
  | s :: ss => by simp [trB, cntB, cntS_tr ρ li ls lb s, cntB_tr ρ li ls lb ss]

end

theorem fingerprint_tr {ρ : String → String} (hρ : Function.Injective ρ)
    (li : Int → Int) (ls : String → String) (lb : Bool → Bool) (f : PFunc) :
    fingerprint (trF ρ li ls lb f) = fingerprint f := by
  show serB (firstOccs ((f.params.map ρ) ++ namesB (trB ρ li ls lb f.body)))
      (trB ρ li ls lb f.body) = serB (firstOccs (f.params ++ namesB f.body)) f.body
  rw [namesB_tr, ← List.map_append, firstOccs_map hρ, serB_tr hρ]

theorem prepend_injective (p : String) : Function.Injective (fun s => p ++ s) := by
  intro a b h
  have hd : p.data ++ a.data = p.data ++ b.data := by
    have := congrArg String.data h
    simpa [String.data_append] using this
  have hab : a.data = b.data := List.append_cancel_left hd
  cases a
  cases b
  exact congrArg String.mk hab

/-- C6: two functions whose bodies differ only in identifier names (under a
consistent injective renaming) and literal values have identical normalized
fingerprints and are reported as a Type-1/2 pair whenever they meet the
minimum-size guard; the iterative and recursive `sum_numbers` fixtures are
reported as a Type-4 pair; and the two unrelated dataclass fixtures sharing
only boilerplate field declarations are not reported as clones — none of
their method-body fingerprints coincide. -/
theorem C6_clone_classification :
    (∀ (cfg : CloneConfig) (f : PFunc) (ρ : String → String) (li : Int → Int)
       (ls : String → String) (lb : Bool → Bool),
       Function.Injective ρ → cfg.minSize ≤ cntB f.body →
       isType12Pair cfg f (trF ρ li ls lb f) = true)
    ∧ isType4Pair defaultCloneConfig sumNumbersIterative sumNumbersRecursive = true
    ∧ isClassClonePair defaultCloneConfig userProfile productInventory = false
    ∧ ((userProfile.methods.map fingerprint).any
        (fun fp => (productInventory.methods.map fingerprint).contains fp)) = false := by
  refine ⟨?_, by decide, by decide, by decide⟩
  intro cfg f ρ li ls lb hρ hsz
  have h1 : fingerprint (trF ρ li ls lb f) = fingerprint f := fingerprint_tr hρ li ls lb f
  have h2 : cntB (trF ρ li ls lb f).body = cntB f.body := cntB_tr ρ li ls lb f.body
  simp [isType12Pair, h1, h2, hsz]

/-- Witness for C6: a concrete injective renaming plus literal rewrites of
the iterative `sum_numbers` fixture is reported as its Type-1/2 clone. -/
theorem C6_clone_classification_witness :
    Function.Injective (fun s => "v_" ++ s)
    ∧ defaultCloneConfig.minSize ≤ cntB sumNumbersIterative.body
    ∧ isType12Pair defaultCloneConfig sumNumbersIterative
        (trF (fun s => "v_" ++ s) (fun n => n + 10) (fun _ => "zz") (fun b => !b)
          sumNumbersIterative) = true :=
  ⟨prepend_injective "v_", by decide,
    C6_clone_classification.1 defaultCloneConfig sumNumbersIterative (fun s => "v_" ++ s)
      (fun n => n + 10) (fun _ => "zz") (fun b => !b)
      (prepend_injective "v_") (by decide)⟩

/-! ## DI anti-pattern detector (spec section 4.6) -/

/-- Modelled from the spec: a constructor as seen by the DI detector — the
ordered list of its dependency parameters (the `self` receiver excluded). -/
structure Ctor where
  params : List String

/-- The `BadService.__init__` fixture with nine dependency parameters. -/
def badServiceCtor : Ctor :=
  ⟨["user_repo", "order_repo", "product_repo", "payment_service",
    "notification_service", "email_service", "cache", "logger", "config"]⟩

/-- The `ExactlyAtThreshold.__init__` fixture with five dependency
parameters. -/
def exactlyAtThresholdCtor : Ctor :=
  ⟨["repo1", "repo2", "service1", "service2", "logger"]⟩

/-- The `JustOverThreshold.__init__` fixture with six dependency
parameters. -/
def justOverThresholdCtor : Ctor :=
  ⟨["repo1", "repo2", "service1", "service2", "logger", "config"]⟩

/-- The `GoodService.__init__` fixture with three dependency parameters. -/
def goodServiceCtor : Ctor :=
  ⟨["repo", "logger", "config"]⟩

/-- Modelled from the spec: the over-injection check — a constructor is
flagged exactly when its dependency-parameter count strictly exceeds the
configured threshold, so the boundary is inclusive-below. -/
def overInjection (threshold : Nat) (c : Ctor) : Bool :=
  decide (threshold < c.params.length)

/-- C7: a constructor is flagged as over-injection exactly when its
parameter count strictly exceeds the configured threshold; at threshold 5
the nine-parameter fixture is flagged, the exactly-five-parameter fixture is
not, the six-parameter fixture is, and the three-parameter fixture is not. -/
theorem C7_over_injection :
    (∀ (c : Ctor) (t : Nat), overInjection t c = true ↔ t < c.params.length)
    ∧ badServiceCtor.params.length = 9
    ∧ overInjection 5 badServiceCtor = true
    ∧ exactlyAtThresholdCtor.params.length = 5
    ∧ overInjection 5 exactlyAtThresholdCtor = false
    ∧ overInjection 5 justOverThresholdCtor = true
    ∧ overInjection 5 goodServiceCtor = false := by
  refine ⟨?_, by decide, by decide, by decide, by decide, by decide, by decide⟩
  intro c t
  simp [overInjection]

/-! ## Cohesion analyzer: connected components of the method graph
(spec section 4.5) -/

/-- Merges a new node into existing groups: every group containing a
neighbor of `x` is merged with `x` into one group, the rest stay. -/
def insertNode {α : Type} (adj : α → α → Bool) (x : α) (gs : List (List α)) :
    List (List α) :=
  (x :: (gs.filter (fun g => g.any (fun y => adj x y))).flatten) ::
    gs.filter (fun g => !(g.any (fun y => adj x y)))

/-- Modelled from the spec: the analyzer's grouping pass — fold the nodes
into groups, merging groups connected through each new node.  The resulting
groups are the connected components of the graph induced on the node
list. -/
def groupsOf {α : Type} (adj : α → α → Bool) : List α → List (List α)
  | [] => []
  | x :: xs => insertNode adj x (groupsOf adj xs)

/-- One undirected-graph edge step inside the node list `l`. -/
def stepOn {α : Type} (adj : α → α → Bool) (l : List α) (x y : α) : Prop :=
  x ∈ l ∧ y ∈ l ∧ adj x y = true

/-- Graph connectivity: reflexive-transitive closure of edge steps inside
`l`. -/
def Conn {α : Type} (adj : α → α → Bool) (l : List α) : α → α → Prop :=
  Relation.ReflTransGen (stepOn adj l)

/-- A partition of the node list `l` into connected components: the groups
jointly exhaust `l`, are nonempty, are each internally connected, and are
pairwise disconnected. -/
def IsComponentPartition {α : Type} (adj : α → α → Bool) (l : List α)
    (gs : List (List α)) : Prop :=
  gs.flatten.Perm l
  ∧ (∀ g ∈ gs, g ≠ [])
  ∧ (∀ g ∈ gs, ∀ x ∈ g, ∀ y ∈ g, Conn adj l x y)
  ∧ List.Pairwise (fun g1 g2 => ∀ x ∈ g1, ∀ y ∈ g2, ¬ Conn adj l x y) gs

theorem conn_mono {α : Type} {adj : α → α → Bool} {l l' : List α}
    (hsub : ∀ z, z ∈ l → z ∈ l') {x y : α} (h : Conn adj l x y) : Conn adj l' x y :=
  Relation.ReflTransGen.mono (fun a b hab => ⟨hsub a hab.1, hsub b hab.2.1, hab.2.2⟩) h

theorem stepOn_symm {α : Type} {adj : α → α → Bool} (hsym : ∀ a b, adj a b = adj b a)
    {l : List α} : Symmetric (stepOn adj l) := by
  intro a b hab
  exact ⟨hab.2.1, hab.1, by rw [hsym]; exact hab.2.2⟩

theorem conn_symm {α : Type} {adj : α → α → Bool} (hsym : ∀ a b, adj a b = adj b a)
    {l : List α} {x y : α} (h : Conn adj l x y) : Conn adj l y x :=
  Relation.ReflTransGen.symmetric (stepOn_symm hsym) h

theorem conn_single {α : Type} {adj : α → α → Bool} {l : List α} {x y : α}
    (hx : x ∈ l) (hy : y ∈ l) (hadj : adj x y = true) : Conn adj l x y :=
  Relation.ReflTransGen.single ⟨hx, hy, hadj⟩

theorem pairwise_conn_symm {α : Type} {adj : α → α → Bool}
    (hsym : ∀ a b, adj a b = adj b a) (l : List α) :
    Symmetric (fun g1 g2 : List α => ∀ x ∈ g1, ∀ y ∈ g2, ¬ Conn adj l x y) := by
  intro g1 g2 h12 u hu v hv hconn
  exact h12 v hv u hu (conn_symm hsym hconn)

theorem mem_of_group {α : Type} {l : List α} {gs : List (List α)}
    (hperm : gs.flatten.Perm l) {g : List α} (hg : g ∈ gs) {u : α} (hu : u ∈ g) :
    u ∈ l :=
  hperm.mem_iff.mp (List.mem_flatten.mpr ⟨g, hg, hu⟩)

/-- A connected component of the old node list that has no member adjacent
to the new node `x` is closed under connectivity in the extended list. -/
theorem conn_confined {α : Type} {adj : α → α → Bool} (hsym : ∀ a b, adj a b = adj b a)
    {xs : List α} {gs : List (List α)} (hpart : IsComponentPartition adj xs gs)
    {x : α} {g : List α} (hg : g ∈ gs) (hun : g.any (fun y => adj x y) = false)
    {u v : α} (hu : u ∈ g) (hconn : Conn adj (x :: xs) u v) : v ∈ g := by
  obtain ⟨hperm, hne, hwithin, hpw⟩ := hpart
  induction hconn with
  | refl => exact hu
  | @tail b v hbc hstep ih =>
      obtain ⟨hbmem, hvmem, hadj⟩ := hstep
      rcases List.mem_cons.mp hvmem with rfl | hvxs
      · exfalso
        have hany : g.any (fun y => adj v y) = true :=
          List.any_eq_true.mpr ⟨b, ih, by rw [hsym]; exact hadj⟩
        rw [hany] at hun
        exact Bool.noConfusion hun
      · have hvj : v ∈ gs.flatten := hperm.mem_iff.mpr hvxs
        obtain ⟨g', hg', hvg'⟩ := List.mem_flatten.mp hvj
        by_cases hgg : g' = g
        · exact hgg ▸ hvg'
        · exfalso
          have hbxs : b ∈ xs := mem_of_group hperm hg ih
          have hstep2 : Conn adj xs b v := conn_single hbxs hvxs hadj
          exact List.Pairwise.forall (pairwise_conn_symm hsym xs) hpw hg hg'
            (Ne.symm hgg) b ih v hvg' hstep2

/-- Inserting one node into a component partition yields a component
partition of the extended node list. -/
theorem insertNode_partition {α : Type} {adj : α → α → Bool}
    (hsym : ∀ a b, adj a b = adj b a) {xs : List α} {gs : List (List α)}
    (hpart : IsComponentPartition adj xs gs) (x : α) (hx : adj x x = true) :
    IsComponentPartition adj (x :: xs) (insertNode adj x gs) := by
  obtain ⟨hperm, hne, hwithin, hpw⟩ := hpart
  have hsub : ∀ z, z ∈ xs → z ∈ x :: xs := fun z hz => List.mem_cons_of_mem _ hz
  have hmergedx : ∀ u ∈ x :: (gs.filter (fun g => g.any (fun y => adj x y))).flatten,
      Conn adj (x :: xs) u x := by
    intro u hu
    rcases List.mem_cons.mp hu with rfl | hu'
    · exact Relation.ReflTransGen.refl
    · rcases List.mem_flatten.mp hu' with ⟨g, hgT, hug⟩
      rcases List.mem_filter.mp hgT with ⟨hggs, hpg⟩
      rcases List.any_eq_true.mp hpg with ⟨z, hzg, hadj⟩
      have h2 : Conn adj (x :: xs) u z := conn_mono hsub (hwithin g hggs u hug z hzg)
      refine h2.tail ?_
      exact ⟨List.mem_cons_of_mem _ (mem_of_group hperm hggs hzg), List.mem_cons_self _ _,
        by rw [hsym]; exact hadj⟩
  refine ⟨?_, ?_, ?_, ?_⟩
  · simp only [insertNode, List.flatten_cons, List.cons_append]
    refine List.Perm.cons x ?_
    have h1 := List.Perm.flatten (List.filter_append_perm (fun g => g.any (fun y => adj x y)) gs)
    rw [List.flatten_append] at h1
    exact h1.trans hperm
  · intro g hg
    rcases List.mem_cons.mp hg with rfl | hg'
    · exact List.cons_ne_nil _ _
    · exact hne g (List.mem_of_mem_filter hg')
  · intro g hg u hu v hv
    rcases List.mem_cons.mp hg with rfl | hg'
    · exact (hmergedx u hu).trans (conn_symm hsym (hmergedx v hv))
    · have hggs : g ∈ gs := List.mem_of_mem_filter hg'
      exact conn_mono hsub (hwithin g hggs u hu v hv)
  · simp only [insertNode]
    rw [List.pairwise_cons]
    constructor
    · intro g hgU u hu v hv hconn
      rcases List.mem_filter.mp hgU with ⟨hggs, hnp⟩
      have hnp' : g.any (fun y => adj x y) = false := by
        simpa using hnp
      have hug : u ∈ g :=
        conn_confined hsym ⟨hperm, hne, hwithin, hpw⟩ hggs hnp' hv
          (conn_symm hsym hconn)
      rcases List.mem_cons.mp hu with rfl | hu'
      · have hany : g.any (fun y => adj u y) = true :=
          List.any_eq_true.mpr ⟨u, hug, hx⟩
        rw [hany] at hnp'
        exact Bool.noConfusion hnp'
      · rcases List.mem_flatten.mp hu' with ⟨gt, hgtT, hugt⟩
        rcases List.mem_filter.mp hgtT with ⟨hgtgs, hpgt⟩
        have hne2 : gt ≠ g := by
          intro hEq
          rw [hEq, hnp'] at hpgt
          exact Bool.noConfusion hpgt
        exact List.Pairwise.forall (pairwise_conn_symm hsym xs) hpw hgtgs hggs hne2
          u hugt u hug Relation.ReflTransGen.refl
    · refine List.Pairwise.imp_of_mem ?_
        (List.Pairwise.sublist (List.filter_sublist gs) hpw)
      intro g1 g2 hg1 hg2 hP u hu v hv hconn
      rcases List.mem_filter.mp hg1 with ⟨hg1gs, hnp1⟩
      have hnp1' : g1.any (fun y => adj x y) = false := by simpa using hnp1
      have hvg1 : v ∈ g1 :=
        conn_confined hsym ⟨hperm, hne, hwithin, hpw⟩ hg1gs hnp1' hu hconn
      exact hP v hvg1 v hv Relation.ReflTransGen.refl

/-- The grouping pass computes a connected-component partition of its node
list, for any symmetric adjacency that is reflexive on the nodes. -/
theorem groupsOf_partition {α : Type} {adj : α → α → Bool}
    (hsym : ∀ a b, adj a b = adj b a) :
    ∀ l : List α, (∀ z ∈ l, adj z z = true) →
      IsComponentPartition adj l (groupsOf adj l) := by
  intro l
  induction l with
  | nil =>
      intro _
      exact ⟨by simp [groupsOf], by simp [groupsOf], by simp [groupsOf],
        by simp [groupsOf]⟩
  | cons x xs ih =>
      intro hrefl
      have hpart := ih (fun z hz => hrefl z (List.mem_cons_of_mem _ hz))
      exact insertNode_partition hsym hpart x (hrefl x (List.mem_cons_self _ _))

/-- Any two component partitions of the same node list have the same number
of groups, so the number of connected components is well defined. -/
theorem partition_length_unique {α : Type} {adj : α → α → Bool}
    (hsym : ∀ a b, adj a b = adj b a) {l : List α} {gs1 gs2 : List (List α)}
    (h1 : IsComponentPartition adj l gs1) (h2 : IsComponentPartition adj l gs2) :
    gs1.length = gs2.length := by
  have key : ∀ (ga gb : List (List α)), IsComponentPartition adj l ga →
      IsComponentPartition adj l gb → ga.length ≤ gb.length := by
    intro ga gb ha hb
    obtain ⟨hpa, hnea, hwa, hpwa⟩ := ha
    obtain ⟨hpb, hneb, hwb, hpwb⟩ := hb
    have hchoose : ∀ i : Fin ga.length, ∃ j : Fin gb.length, ∃ u,
        u ∈ ga.get i ∧ u ∈ gb.get j := by
      intro i
      obtain ⟨u, hu⟩ := List.exists_mem_of_ne_nil _ (hnea (ga.get i) (List.get_mem ga i.val i.isLt))
      have hul : u ∈ l := mem_of_group hpa (List.get_mem ga i.val i.isLt) hu
      obtain ⟨g', hg', hug'⟩ := List.mem_flatten.mp (hpb.mem_iff.mpr hul)
      obtain ⟨j, hj⟩ := List.mem_iff_get.mp hg'
      exact ⟨j, u, hu, hj ▸ hug'⟩
    choose f u hf1 hf2 using hchoose
    have hinj : Function.Injective f := by
      intro i i' hff
      by_contra hii
      have hconn : Conn adj l (u i) (u i') := by
        refine hwb (gb.get (f i)) (List.get_mem gb (f i).val (f i).isLt) (u i) (hf2 i) (u i') ?_
        rw [hff]
        exact hf2 i'
      have hP := List.pairwise_iff_get.mp hpwa
      rcases lt_trichotomy i i' with hlt | heq | hlt
      · exact hP i i' hlt (u i) (hf1 i) (u i') (hf1 i') hconn
      · exact hii heq
      · exact hP i' i hlt (u i') (hf1 i') (u i) (hf1 i) (conn_symm hsym hconn)
    have hcard := Fintype.card_le_of_injective f hinj
    simpa using hcard
  exact Nat.le_antisymm (key gs1 gs2 h1 h2) (key gs2 gs1 h2 h1)

/-- A set closed under adjacency steps out of it contains everything
connected to its members. -/
theorem conn_closed {α : Type} {adj : α → α → Bool} {l S : List α}
    (hcl : ∀ a ∈ S, ∀ b ∈ l, adj a b = true → b ∈ S) {u v : α}
    (hu : u ∈ S) (h : Conn adj l u v) : v ∈ S := by
  induction h with
  | refl => exact hu
  | tail hbc hstep ih => exact hcl _ ih _ hstep.2.1 hstep.2.2

/-- Kind of a method of a class: plain instance method, static method or
class method. -/
inductive MethodKind
  | instanceM
  | staticM
  | classM
deriving DecidableEq

/-- Modelled from the spec: a method as seen by the cohesion analyzer — its
name, kind, and the instance attributes it reads or writes (a property
accessor is an ordinary method keyed to the attribute it exposes). -/
structure PyMethod where
  mname : String
  kind : MethodKind
  attrs : List String
deriving DecidableEq

/-- A class as seen by the cohesion analyzer. -/
structure ClassDef where
  cname : String
  methods : List PyMethod

/-- Modelled from the spec: two methods are joined by an edge when they both
read or write at least one common instance attribute. -/
def sharesAttr (a b : PyMethod) : Bool :=
  a.attrs.any (fun s => b.attrs.contains s)

/-- Modelled from the spec and the `lcom_classes.py` fixture expectations:
the nodes of the cohesion graph are the instance methods that access at
least one instance attribute; static methods, class methods and methods
touching no attribute are excluded. -/
def cohesionNodes (c : ClassDef) : List PyMethod :=
  c.methods.filter (fun m => (m.kind == .instanceM) && !(m.attrs.isEmpty))

/-- All instance methods of a class, attribute-less ones included.  This is
the node set named by claim C8's own wording, kept separate so the claim
can be compared against the analyzer's node set. -/
def instanceMethods (c : ClassDef) : List PyMethod :=
  c.methods.filter (fun m => m.kind == .instanceM)

/-- Modelled from the spec: the reported cohesion score — the number of
connected components of the method graph over `cohesionNodes`, with classes
having at most one node (or none) scoring fully cohesive. -/
def lcom4 (c : ClassDef) : Nat :=
  max 1 (groupsOf sharesAttr (cohesionNodes c)).length

theorem sharesAttr_symm (a b : PyMethod) : sharesAttr a b = sharesAttr b a := by
  simp only [sharesAttr]
  rw [Bool.eq_iff_iff]
  constructor
  · intro h
    rcases List.any_eq_true.mp h with ⟨s, hs1, hs2⟩
    exact List.any_eq_true.mpr ⟨s, by simpa using hs2, by simpa using hs1⟩
  · intro h
    rcases List.any_eq_true.mp h with ⟨s, hs1, hs2⟩
    exact List.any_eq_true.mpr ⟨s, by simpa using hs2, by simpa using hs1⟩

theorem sharesAttr_refl {m : PyMethod} (h : m.attrs ≠ []) : sharesAttr m m = true := by
  obtain ⟨a, ha⟩ := List.exists_mem_of_ne_nil _ h
  exact List.any_eq_true.mpr ⟨a, ha, by simpa using ha⟩

theorem cohesionNodes_refl (c : ClassDef) :
    ∀ m ∈ cohesionNodes c, sharesAttr m m = true := by
  intro m hm
  rcases List.mem_filter.mp hm with ⟨_, hp⟩
  simp only [Bool.and_eq_true, Bool.not_eq_true'] at hp
  refine sharesAttr_refl ?_
  intro hnil
  rw [hnil] at hp
  simp at hp

/-- The reported score equals one floor the size of any component partition
of the analyzer's node set. -/
theorem lcom4_components (c : ClassDef) (gs : List (List PyMethod))
    (h : IsComponentPartition sharesAttr (cohesionNodes c) gs) :
    lcom4 c = max 1 gs.length := by
  have hg := groupsOf_partition sharesAttr_symm (cohesionNodes c) (cohesionNodes_refl c)
  have := partition_length_unique sharesAttr_symm hg h
  simp [lcom4, this]

/-- The `CohesiveClass` fixture: every method touches `value`. -/
def cohesiveClass : ClassDef :=
  ⟨"CohesiveClass",
    [⟨"__init__", .instanceM, ["value"]⟩,
     ⟨"get_value", .instanceM, ["value"]⟩,
     ⟨"set_value", .instanceM, ["value"]⟩]⟩

/-- The `TwoGroupClass` fixture: two disjoint attribute-access groups. -/
def twoGroupClass : ClassDef :=
  ⟨"TwoGroupClass",
    [⟨"get_a", .instanceM, ["a"]⟩,
     ⟨"set_a", .instanceM, ["a"]⟩,
     ⟨"get_b", .instanceM, ["b"]⟩,
     ⟨"set_b", .instanceM, ["b"]⟩]⟩

/-- The `ClassWithDecorators` fixture: two cohesive instance methods plus a
static and a class method. -/
def classWithDecorators : ClassDef :=
  ⟨"ClassWithDecorators",
    [⟨"__init__", .instanceM, ["data"]⟩,
     ⟨"add", .instanceM, ["data"]⟩,
     ⟨"helper", .staticM, []⟩,
     ⟨"create", .classM, []⟩]⟩

/-- The `NoSelfAccessClass` fixture: two instance methods touching no
instance attribute; the fixture documents an expected score of one. -/
def noSelfAccessClass : ClassDef :=
  ⟨"NoSelfAccessClass",
    [⟨"method_a", .instanceM, []⟩,
     ⟨"method_b", .instanceM, []⟩]⟩

/-- The `SingleMethodClass` fixture. -/
def singleMethodClass : ClassDef :=
  ⟨"SingleMethodClass", [⟨"do_something", .instanceM, ["x"]⟩]⟩

/-- The `EmptyClass` fixture. -/
def emptyClass : ClassDef :=
  ⟨"EmptyClass", []⟩


/-- C8 (amended): the reported cohesion score equals the number of connected
components (floored at one) of the undirected graph whose nodes are the
class's attribute-accessing instance methods and whose edges join methods
sharing an instance attribute — for any witnessing component partition; on
the fixtures, the fully cohesive class scores one component, the
two-disjoint-group class scores two, and classes with one or zero methods
score one. -/
theorem C8_cohesion_component_count :
    (∀ (c : ClassDef) (gs : List (List PyMethod)),
       IsComponentPartition sharesAttr (cohesionNodes c) gs →
       lcom4 c = max 1 gs.length)
    ∧ lcom4 cohesiveClass = 1
    ∧ lcom4 twoGroupClass = 2
    ∧ lcom4 singleMethodClass = 1
    ∧ lcom4 emptyClass = 1 :=
  ⟨lcom4_components, by decide, by decide, by decide, by decide⟩

/-- Counterexample to C8 as stated: for `NoSelfAccessClass` the graph over
ALL instance methods (the claim's node set) has exactly two connected
components — every component partition of it has two groups — yet the
reported score is one, because the analyzer excludes attribute-less methods
from the graph. -/
theorem C8_cohesion_counterexample :
    lcom4 noSelfAccessClass = 1
    ∧ IsComponentPartition sharesAttr (instanceMethods noSelfAccessClass)
        [[⟨"method_a", .instanceM, []⟩], [⟨"method_b", .instanceM, []⟩]]
    ∧ (∀ gs, IsComponentPartition sharesAttr (instanceMethods noSelfAccessClass) gs →
        gs.length = 2) := by
  have hpart : IsComponentPartition sharesAttr (instanceMethods noSelfAccessClass)
      [[⟨"method_a", .instanceM, []⟩], [⟨"method_b", .instanceM, []⟩]] := by
    refine ⟨by decide, by decide, ?_, ?_⟩
    · intro g hg x hx y hy
      simp only [List.mem_cons, List.not_mem_nil, or_false] at hg
      rcases hg with rfl | rfl
      · simp only [List.mem_singleton] at hx hy
        subst hx
        subst hy
        exact Relation.ReflTransGen.refl
      · simp only [List.mem_singleton] at hx hy
        subst hx
        subst hy
        exact Relation.ReflTransGen.refl
    · rw [List.pairwise_cons]
      refine ⟨?_, by simp⟩
      intro g hg u hu v hv hconn
      simp only [List.mem_cons, List.not_mem_nil, or_false] at hg
      subst hg
      simp only [List.mem_singleton] at hu hv
      subst hu
      subst hv
      rcases Relation.ReflTransGen.cases_head hconn with heq | ⟨c, hstep, _⟩
      · exact absurd heq (by decide)
      · have hadj := hstep.2.2
        simp [sharesAttr] at hadj
  refine ⟨by decide, hpart, ?_⟩
  intro gs hgs
  simpa using partition_length_unique sharesAttr_symm hgs hpart

/-- Witness for C8 at the `TwoGroupClass` fixture with its explicit
two-component partition. -/
theorem C8_cohesion_component_count_witness :
    IsComponentPartition sharesAttr (cohesionNodes twoGroupClass)
      [[⟨"get_a", .instanceM, ["a"]⟩, ⟨"set_a", .instanceM, ["a"]⟩],
       [⟨"get_b", .instanceM, ["b"]⟩, ⟨"set_b", .instanceM, ["b"]⟩]]
    ∧ lcom4 twoGroupClass = max 1 2 := by
  have hpart : IsComponentPartition sharesAttr (cohesionNodes twoGroupClass)
      [[⟨"get_a", .instanceM, ["a"]⟩, ⟨"set_a", .instanceM, ["a"]⟩],
       [⟨"get_b", .instanceM, ["b"]⟩, ⟨"set_b", .instanceM, ["b"]⟩]] := by
    refine ⟨by decide, by decide, ?_, ?_⟩
    · intro g hg x hx y hy
      simp only [List.mem_cons, List.not_mem_nil, or_false] at hg
      rcases hg with rfl | rfl <;>
        (simp only [List.mem_cons, List.not_mem_nil, or_false] at hx hy
         rcases hx with rfl | rfl <;> rcases hy with rfl | rfl) <;>
        first
          | exact Relation.ReflTransGen.refl
          | exact conn_single (by decide) (by decide) (by decide)
    · rw [List.pairwise_cons]
      refine ⟨?_, by simp⟩
      intro g hg u hu v hv hconn
      simp only [List.mem_cons, List.not_mem_nil, or_false] at hg
      subst hg
      have hvS : v ∈ [(⟨"get_a", .instanceM, ["a"]⟩ : PyMethod),
          ⟨"set_a", .instanceM, ["a"]⟩] :=
        conn_closed (by decide) hu hconn
      simp only [List.mem_cons, List.not_mem_nil, or_false] at hv
      rcases hv with rfl | rfl <;> exact absurd hvS (by decide)
  exact ⟨hpart, C8_cohesion_component_count.1 twoGroupClass _ hpart⟩

/-- C10: static methods, class methods and attribute-less instance methods
are excluded from the cohesion graph and never change the score (inserting
any number of them anywhere is invisible); a class whose nodes all share one
attribute scores one even with such helpers present; on the fixtures, the
decorated class scores one and the class of attribute-less methods scores
one, not one per method. -/
theorem C10_cohesion_exclusions :
    (∀ (cn : String) (ms1 ms2 extra : List PyMethod),
       (∀ m ∈ extra, m.kind ≠ .instanceM ∨ m.attrs = []) →
       lcom4 ⟨cn, ms1 ++ (extra ++ ms2)⟩ = lcom4 ⟨cn, ms1 ++ ms2⟩)
    ∧ (∀ (c : ClassDef) (a : String),
       (∀ m ∈ cohesionNodes c, a ∈ m.attrs) → lcom4 c = 1)
    ∧ lcom4 classWithDecorators = 1
    ∧ lcom4 noSelfAccessClass = 1 := by
  refine ⟨?_, ?_, by decide, by decide⟩
  · intro cn ms1 ms2 extra hex
    have hfil : cohesionNodes ⟨cn, ms1 ++ (extra ++ ms2)⟩ =
        cohesionNodes ⟨cn, ms1 ++ ms2⟩ := by
      simp only [cohesionNodes, List.filter_append]
      have hnil : extra.filter (fun m => (m.kind == .instanceM) && !(m.attrs.isEmpty)) = [] := by
        rw [List.filter_eq_nil_iff]
        intro m hm
        rcases hex m hm with hk | ha
        · simp [hk]
        · simp [ha]
      rw [hnil]
      simp
    simp [lcom4, hfil]
  · intro c a hall
    rcases hne : cohesionNodes c with _ | ⟨m0, rest⟩
    · simp [lcom4, hne, groupsOf]
    · have hnodes : cohesionNodes c ≠ [] := by rw [hne]; exact List.cons_ne_nil _ _
      have hpart : IsComponentPartition sharesAttr (cohesionNodes c) [cohesionNodes c] := by
        refine ⟨by simp, ?_, ?_, ?_⟩
        · intro g hg
          simp only [List.mem_singleton] at hg
          subst hg
          exact hnodes
        · intro g hg x hx y hy
          simp only [List.mem_singleton] at hg
          subst hg
          refine conn_single hx hy ?_
          exact List.any_eq_true.mpr ⟨a, hall x hx, by simpa using hall y hy⟩
        · simp
      have hres := lcom4_components c _ hpart
      simpa using hres

/-- Witness for C10: the `ClassWithDecorators` fixture equals its
helper-free version, and the fully cohesive fixture scores one. -/
theorem C10_cohesion_exclusions_witness :
    (∀ m ∈ ([⟨"helper", .staticM, []⟩, ⟨"create", .classM, []⟩] : List PyMethod),
       m.kind ≠ .instanceM ∨ m.attrs = [])
    ∧ lcom4 classWithDecorators =
        lcom4 ⟨"ClassWithDecorators",
          [⟨"__init__", .instanceM, ["data"]⟩, ⟨"add", .instanceM, ["data"]⟩]⟩
    ∧ (∀ m ∈ cohesionNodes cohesiveClass, "value" ∈ m.attrs)
    ∧ lcom4 cohesiveClass = 1 :=
  ⟨by decide,
    C10_cohesion_exclusions.1 "ClassWithDecorators"
      [⟨"__init__", .instanceM, ["data"]⟩, ⟨"add", .instanceM, ["data"]⟩] []
      [⟨"helper", .staticM, []⟩, ⟨"create", .classM, []⟩] (by decide),
    by decide,
    C10_cohesion_exclusions.2.1 cohesiveClass "value" (by decide)⟩
